import Mathlib

/-!
Shallow embedding of two pylops operators and proofs of their
specification claims.

Source files embedded here:
* src/pylops/basicoperators/Transpose.py  (class Transpose)
* src/pylops/basicoperators/MatrixMult.py (class MatrixMult)

Arrays are modelled as flat lists in row-major (C) order, the layout
numpy uses for reshape / ravel.  Multi-dimensional operations are
expressed through explicit flat-index / multi-index arithmetic.
-/

namespace PyLops

/-! ## Flat-index / multi-index arithmetic (numpy row-major layout) -/

/-- Row-major multi-index of the flat position `k` in an array of shape
`dims`: component `t` is `(k / prod dims[t+1:]) % ...` computed by
repeated division, exactly numpy's C-order unraveling. -/
def multiIdx : List Nat → Nat → List Nat
  | [], _ => []
  | _ :: ds, k => k / ds.prod :: multiIdx ds (k % ds.prod)

/-- Row-major flat position of the multi-index `idx` in an array of
shape `dims`. -/
def flatIdx : List Nat → List Nat → Nat
  | [], _ => 0
  | _ :: _, [] => 0
  | _ :: ds, j :: js => j * ds.prod + flatIdx ds js

/-- Boolean test that `idx` is a well-formed multi-index for shape
`dims`: same rank, and every component strictly below the matching
extent. -/
def validIdx : List Nat → List Nat → Bool
  | [], [] => true
  | d :: ds, j :: js => j < d && validIdx ds js
  | _, _ => false

/-- Gather of `l` along an index list `p`: entry `t` of the result is
`l[p[t]]` (numpy fancy indexing `l[p]`, with 0 for an out-of-range
read, which never happens under the hypotheses used below). -/
def permute (p : List Nat) (l : List Nat) : List Nat :=
  p.map (fun i => l.getD i 0)

/-- Index list sending each `m < p.length` to the first position of `m`
inside `p`; for a permutation `p` this is the inverse permutation. -/
def invPermL (p : List Nat) : List Nat :=
  (List.range p.length).map (fun m => p.findIdx (fun a => a == m))

/-- Scatter assignment `init[idx] = vals` of numpy fancy-index
assignment with equal-length index and value arrays: positions are
written left to right, so on duplicate indices the last write wins,
as in numpy. -/
def scatterL : List Nat → List Nat → List Nat → List Nat
  | [], _, init => init
  | _ :: _, [], init => init
  | a :: as, v :: vs, init => scatterL as vs (init.set a v)

/-- Semantics of `x.reshape(dims).transpose(axes).ravel()` on a flat
row-major buffer `x`: the output has shape `permute axes dims`, and its
element at multi-index `j` is the input element at the multi-index `i`
with `i[axes[t]] = j[t]`, i.e. `i = permute (invPermL axes) j`.  This is
numpy's axis-transposition law. -/
def npTransposeFlat {α : Type} [Inhabited α] (dims axes : List Nat) (x : List α) : List α :=
  (List.range (permute axes dims).prod).map
    (fun k => x.getD (flatIdx dims (permute (invPermL axes) (multiIdx (permute axes dims) k))) default)

/-! ## Transpose.py -/

/-- Errors a `Transpose(...)` construction can raise.
`axisError` is numpy's `AxisError` from `normalize_axis_index` (an axis
outside `[-ndims, ndims)`); `valueError` is the explicit
`ValueError("axes must contain each direction once")` of line 61;
`broadcastError` is the shape-mismatch `ValueError` numpy raises at
line 65 when `axesd[self.axes] = np.arange(ndims)` assigns a value
array whose length can be broadcast neither elementwise nor as a
single element. -/
inductive TransErr
  | axisError
  | valueError
  | broadcastError
deriving DecidableEq

/-- Model of `numpy.core.multiarray.normalize_axis_index`: an axis in
`[-ndims, ndims)` is mapped into `[0, ndims)` by adding `ndims` when
negative; anything outside raises `AxisError`. -/
def normalize_axis_index (ax : Int) (ndims : Nat) : Except TransErr Nat :=
  if ax < -(ndims : Int) ∨ (ndims : Int) ≤ ax then .error .axisError
  else if ax < 0 then .ok (ax + ndims).toNat
  else .ok ax.toNat

/-- Model of the list comprehension
`[normalize_axis_index(ax, ndims) for ax in axes]` (line 57): axes are
normalized left to right and the first failure raises. -/
def normalizeAxes (ndims : Nat) : List Int → Except TransErr (List Nat)
  | [] => .ok []
  | ax :: rest =>
    match normalize_axis_index ax ndims with
    | .error e => .error e
    | .ok a =>
      match normalizeAxes ndims rest with
      | .error e => .error e
      | .ok as => .ok (a :: as)

/-- State of a constructed `Transpose` operator (Transpose.py lines
54-74): the input shape `dims`, the normalized `axes`, the adjoint
permutation `axesd`, the output shape `dimsd` and the operator
`shape`. -/
structure Transpose where
  dims : List Nat
  axes : List Nat
  axesd : List Nat
  dimsd : List Nat
  shape : Nat × Nat
deriving DecidableEq

/-- Model of `Transpose.__init__` (lines 54-74).  After normalizing
`axes`, `len(np.unique(axes)) != ndims` raises the documented
`ValueError` (`np.unique` lists each distinct value once, so its length
is `axes.dedup.length`).  The scatter `axesd[axes] = np.arange(ndims)`
then requires the value array `np.arange(ndims)` to broadcast onto the
`len(axes)` indexed positions: elementwise when `len(axes) == ndims`,
by stretching the single element when `ndims == 1`, and a broadcast
error otherwise.  Finally `dimsd[axesd] = dims` (elementwise: both
sides have length `ndims`) and `shape = (prod dimsd, prod dims)`. -/
def Transpose.make (dims : List Nat) (axesIn : List Int) : Except TransErr Transpose :=
  match normalizeAxes dims.length axesIn with
  | .error e => .error e
  | .ok axes =>
    if axes.dedup.length ≠ dims.length then .error .valueError
    else if axes.length = dims.length ∨ dims.length = 1 then
      let vals := if axes.length = dims.length then List.range dims.length
                  else List.replicate axes.length 0
      let axesd := scatterL axes vals (List.replicate dims.length 0)
      let dimsd := scatterL axesd dims (List.replicate dims.length 0)
      .ok ⟨dims, axes, axesd, dimsd, (dimsd.prod, dims.prod)⟩
    else .error .broadcastError

/-- Model of `Transpose._matvec` (lines 76-79):
`x.reshape(self.dims).transpose(self.axes).ravel()` on the flat
buffer. -/
def Transpose.matvec {α : Type} [Inhabited α] (T : Transpose) (x : List α) : List α :=
  npTransposeFlat T.dims T.axes x

/-- Model of `Transpose._rmatvec` (lines 81-84):
`x.reshape(self.dimsd).transpose(self.axesd).ravel()` on the flat
buffer. -/
def Transpose.rmatvec {α : Type} [Inhabited α] (T : Transpose) (x : List α) : List α :=
  npTransposeFlat T.dimsd T.axesd x

/-! ## MatrixMult.py

A 2-D matrix is a list of rows.  The scalar type `R` is kept abstract:
the algebraic theorems instantiate it with a commutative star ring,
where `star` plays the role of numpy's complex conjugation `.conj()`. -/

/-- Dot product of two flat 1-D buffers, `numpy.dot` for vectors:
the plain bilinear sum of elementwise products, with no conjugation. -/
def dotl {R : Type} [Mul R] [Add R] [Zero R] (u v : List R) : R :=
  (List.zipWith (fun a b => a * b) u v).sum

/-- Conjugate-linear inner product, `numpy.vdot` for vectors: the first
argument is conjugated. -/
def vdotl {R : Type} [Mul R] [Add R] [Zero R] [Star R] (u v : List R) : R :=
  (List.zipWith (fun a b => star a * b) u v).sum

/-- Number of rows of a row-list matrix, `A.shape[0]`. -/
def nrows {R : Type} (A : List (List R)) : Nat := A.length

/-- Number of columns of a row-list matrix, `A.shape[1]` (the length of
the first row; all rows agree on a well-formed matrix). -/
def ncols {R : Type} (A : List (List R)) : Nat := (A.headD []).length

/-- Well-formedness of a row-list matrix: `m` rows, each of length `n`. -/
def wellFormed {R : Type} (A : List (List R)) (m n : Nat) : Prop :=
  A.length = m ∧ ∀ r ∈ A, r.length = n

instance {R : Type} (A : List (List R)) (m n : Nat) : Decidable (wellFormed A m n) :=
  inferInstanceAs (Decidable (A.length = m ∧ ∀ r ∈ A, r.length = n))

/-- Matrix-vector product `A.dot(x)` for a 2-D `A` and 1-D `x`:
entry `i` is the dot product of row `i` with `x`. -/
def matVec {R : Type} [Mul R] [Add R] [Zero R] (A : List (List R)) (x : List R) : List R :=
  A.map (fun r => dotl r x)

/-- Transposed matrix `A.T`: row `j` of the result collects entry `j`
of every row of `A`. -/
def trMat {R : Type} [Zero R] (A : List (List R)) : List (List R) :=
  (List.range (ncols A)).map (fun j => A.map (fun r => r.getD j 0))

/-- Matrix-matrix product `A.dot(B)` for 2-D operands: entry `(i, k)`
is the dot product of row `i` of `A` with column `k` of `B`. -/
def matMat {R : Type} [Mul R] [Add R] [Zero R] (A B : List (List R)) : List (List R) :=
  A.map (fun r => (trMat B).map (fun c => dotl r c))

/-- Elementwise conjugation `X.conj()` of a 2-D array. -/
def conjMat {R : Type} [Star R] (A : List (List R)) : List (List R) :=
  A.map (fun r => r.map star)

/-- Reshape of a flat row-major buffer into an `m`-by-`K` row-list
matrix, `ncp.reshape(x, (m, K))`. -/
def reshape2 {R : Type} (x : List R) (m K : Nat) : List (List R) :=
  (List.range m).map (fun i => (x.drop (i * K)).take K)

/-- The numpy dtypes this excerpt distinguishes; only complexness of
the kind matters to the code. -/
inductive DType
  | float32
  | float64
  | complex64
  | complex128
deriving DecidableEq

/-- Whether a dtype is of complex kind: exactly what
`np.iscomplexobj` reports for an array of that dtype
(`np.iscomplexobj(np.ones(1, dtype=dt))`). -/
def DType.isComplex : DType → Bool
  | .complex64 => true
  | .complex128 => true
  | _ => false

/-- State of a constructed `MatrixMult` operator (MatrixMult.py lines
47-77).  The source stores scalar `dims`/`dimsd` in the no-`otherdims`
case; here they are kept as singleton shape lists so that
`prod dims`/`prod dimsd` reads uniformly.  `warned` records whether the
constructor emitted the dtype-promotion `logging.warning`. -/
structure MatrixMult (R : Type) where
  A : List (List R)
  complex : Bool
  reshape : Bool
  dims : List Nat
  dimsd : List Nat
  dimsflatten : List Nat
  dimsdflatten : List Nat
  shape : Nat × Nat
  explicit : Bool
  dtype : DType
  warned : Bool

/-- Effective dtype after the constructor's final check (MatrixMult.py
lines 72-77): `np.iscomplexobj(A) and not np.iscomplexobj(np.ones(1,
dtype=self.dtype))` replaces the requested dtype by `A.dtype`. -/
def promoteDtype (Adtype dtype : DType) : DType :=
  if Adtype.isComplex && !dtype.isComplex then Adtype else dtype

/-- Whether the constructor's final check emits its `logging.warning`
(MatrixMult.py lines 73-77). -/
def promoteWarn (Adtype dtype : DType) : Bool :=
  Adtype.isComplex && !dtype.isComplex

/-- Model of `MatrixMult.__init__` (lines 47-77).  `Adtype` is the
dtype of the wrapped values: `self.complex = np.iscomplexobj(A)`
(or of `A.data` for sparse `A`, the same dtype test) is its complex
kind.  Without `otherdims`: `dims = A.shape[1]`, `dimsd = A.shape[0]`,
`shape = A.shape`, `explicit = True`.  With `otherdims`:
`dims = (A.shape[1], *otherdims)`, `dimsd = (A.shape[0], *otherdims)`,
`dimsflatten = (A.shape[1], prod otherdims)`,
`dimsdflatten = (A.shape[0], prod otherdims)`,
`shape = (prod dimsd, prod dims)`, `explicit = False`.  Finally, when
`A` is complex but the requested dtype is not, the dtype is replaced by
`A.dtype` and a warning is logged (`promoteDtype` / `promoteWarn`). -/
def MatrixMult.make {R : Type} (A : List (List R)) (Adtype : DType)
    (otherdims : Option (List Nat)) (dtype : DType) : MatrixMult R :=
  match otherdims with
  | none =>
    { A := A, complex := Adtype.isComplex, reshape := false,
      dims := [ncols A], dimsd := [nrows A],
      dimsflatten := [ncols A], dimsdflatten := [nrows A],
      shape := (nrows A, ncols A), explicit := true,
      dtype := promoteDtype Adtype dtype, warned := promoteWarn Adtype dtype }
  | some od =>
    { A := A, complex := Adtype.isComplex, reshape := true,
      dims := ncols A :: od, dimsd := nrows A :: od,
      dimsflatten := [ncols A, od.prod], dimsdflatten := [nrows A, od.prod],
      shape := ((nrows A :: od).prod, (ncols A :: od).prod), explicit := false,
      dtype := promoteDtype Adtype dtype, warned := promoteWarn Adtype dtype }

/-- Model of `MatrixMult._matvec` (lines 79-87): with `reshape`, the
flat input is reshaped to `dimsflatten = (A.shape[1], prod otherdims)`,
multiplied by `A` and raveled; without, it is the plain matrix-vector
product `A.dot(x)`. -/
def MatrixMult.matvec {R : Type} [Mul R] [Add R] [Zero R]
    (op : MatrixMult R) (x : List R) : List R :=
  if op.reshape then
    (matMat op.A (reshape2 x (op.dimsflatten.getD 0 0) (op.dimsflatten.getD 1 0))).flatten
  else matVec op.A x

/-- Model of `MatrixMult._rmatvec` (lines 89-101): with `reshape`, the
flat input is first reshaped to `dimsdflatten`; then, when the matrix
is complex, `y = (self.A.T.dot(x.conj())).conj()`, otherwise
`y = self.A.T.dot(x)`; with `reshape` the result is raveled. -/
def MatrixMult.rmatvec {R : Type} [Mul R] [Add R] [Zero R] [Star R]
    (op : MatrixMult R) (x : List R) : List R :=
  if op.reshape then
    let xm := reshape2 x (op.dimsdflatten.getD 0 0) (op.dimsdflatten.getD 1 0)
    let y := if op.complex then conjMat (matMat (trMat op.A) (conjMat xm))
             else matMat (trMat op.A) xm
    y.flatten
  else
    if op.complex then (matVec (trMat op.A) (x.map star)).map star
    else matVec (trMat op.A) x

/-- A list is a permutation of the index range `0, ..., n-1`; the validity
condition on normalized `axes` under which `Transpose` is a permutation
operator. -/
def IsPermOf (p : List Nat) (n : Nat) : Prop := p.Perm (List.range n)

instance (p : List Nat) (n : Nat) : Decidable (IsPermOf p n) :=
  inferInstanceAs (Decidable (p.Perm (List.range n)))

/-! ## Generic list lemmas -/

theorem getD_of_lt {α : Type} (l : List α) {j : Nat} (d : α) (h : j < l.length) :
    l.getD j d = l[j] := by
  simp [List.getD_eq_getElem?_getD, List.getElem?_eq_getElem h]

theorem map_getD_range {α : Type} (l : List α) (d : α) :
    (List.range l.length).map (fun i => l.getD i d) = l := by
  apply List.ext_getElem
  · simp
  · intro i h1 h2
    simp only [List.getElem_map, List.getElem_range]
    exact getD_of_lt l d h2

/-! ## Lemmas about permute, invPermL and permutations of range n -/

theorem IsPermOf.len {p : List Nat} {n : Nat} (hp : IsPermOf p n) : p.length = n := by
  simpa using hp.length_eq

theorem IsPermOf.nodup {p : List Nat} {n : Nat} (hp : IsPermOf p n) : p.Nodup :=
  (List.Perm.nodup_iff hp).mpr (List.nodup_range n)

theorem IsPermOf.mem_iff_lt {p : List Nat} {n : Nat} (hp : IsPermOf p n) {m : Nat} :
    m ∈ p ↔ m < n := by
  rw [List.Perm.mem_iff hp]
  exact List.mem_range

theorem IsPermOf.getD_lt {p : List Nat} {n : Nat} (hp : IsPermOf p n) {j : Nat}
    (hj : j < n) : p.getD j 0 < n := by
  have hjl : j < p.length := hp.len ▸ hj
  rw [getD_of_lt _ _ hjl]
  exact hp.mem_iff_lt.mp (p.getElem_mem hjl)

theorem isPermOf_of_nodup_lt {p : List Nat} {n : Nat} (hnd : p.Nodup)
    (hlen : p.length = n) (hlt : ∀ a ∈ p, a < n) : IsPermOf p n := by
  have hsub : p ⊆ List.range n := fun a ha => List.mem_range.mpr (hlt a ha)
  exact (hnd.subperm hsub).perm_of_length_le (by simp [hlen])

theorem permute_length (p l : List Nat) : (permute p l).length = p.length := by
  simp [permute]

theorem permute_getD (p l : List Nat) {j : Nat} (h : j < p.length) :
    (permute p l).getD j 0 = l.getD (p.getD j 0) 0 := by
  rw [getD_of_lt _ _ (by rw [permute_length]; exact h), getD_of_lt _ _ h]
  simp [permute]

theorem findIdx_beq_self {p : List Nat} (hnd : p.Nodup) {j : Nat} (hj : j < p.length) :
    p.findIdx (fun a => a == p[j]) = j := by
  rw [List.findIdx_eq hj]
  refine ⟨by simp, fun k hk => ?_⟩
  simp only [beq_eq_false_iff_ne, ne_eq]
  intro he
  exact absurd (hnd.getElem_inj_iff.mp he) (Nat.ne_of_lt hk)

theorem findIdx_beq_lt {p : List Nat} {m : Nat} (hm : m ∈ p) :
    p.findIdx (fun a => a == m) < p.length :=
  List.findIdx_lt_length_of_exists ⟨m, hm, by simp⟩

theorem getElem_findIdx_beq {p : List Nat} {m : Nat} (hm : m ∈ p) :
    p.get ⟨p.findIdx (fun a => a == m), findIdx_beq_lt hm⟩ = m := by
  have h := @List.findIdx_getElem _ (fun a => a == m) p (findIdx_beq_lt hm)
  simpa using h

theorem invPermL_length (p : List Nat) : (invPermL p).length = p.length := by
  simp [invPermL]

theorem invPermL_getD {p : List Nat} {m : Nat} (h : m < p.length) :
    (invPermL p).getD m 0 = p.findIdx (fun a => a == m) := by
  rw [getD_of_lt _ _ (by rw [invPermL_length]; exact h)]
  simp [invPermL]

theorem invPermL_getD_getD {p : List Nat} {n : Nat} (hp : IsPermOf p n) {j : Nat}
    (hj : j < n) : (invPermL p).getD (p.getD j 0) 0 = j := by
  have hjl : j < p.length := hp.len ▸ hj
  have hlt : p.getD j 0 < p.length := hp.len ▸ hp.getD_lt hj
  rw [invPermL_getD hlt, getD_of_lt _ _ hjl]
  exact findIdx_beq_self hp.nodup hjl

theorem getD_invPermL_lt {p : List Nat} {n : Nat} (hp : IsPermOf p n) {m : Nat}
    (hm : m < n) : (invPermL p).getD m 0 < n := by
  have hmem : m ∈ p := hp.mem_iff_lt.mpr hm
  rw [invPermL_getD (hp.len ▸ hm)]
  exact hp.len ▸ findIdx_beq_lt hmem

theorem getD_getD_invPermL {p : List Nat} {n : Nat} (hp : IsPermOf p n) {m : Nat}
    (hm : m < n) : p.getD ((invPermL p).getD m 0) 0 = m := by
  have hmem : m ∈ p := hp.mem_iff_lt.mpr hm
  rw [invPermL_getD (hp.len ▸ hm), getD_of_lt _ _ (findIdx_beq_lt hmem)]
  exact getElem_findIdx_beq hmem

theorem IsPermOf.invPermL_isPerm {p : List Nat} {n : Nat} (hp : IsPermOf p n) :
    IsPermOf (invPermL p) n := by
  refine isPermOf_of_nodup_lt ?_ (by rw [invPermL_length, hp.len]) ?_
  · refine List.Nodup.map_on ?_ (List.nodup_range p.length)
    intro x hx y hy hxy
    rw [List.mem_range, hp.len] at hx hy
    have h1 := getD_getD_invPermL hp hx
    have h2 := getD_getD_invPermL hp hy
    rw [invPermL_getD (hp.len ▸ hx)] at h1
    rw [invPermL_getD (hp.len ▸ hy)] at h2
    rw [← h1, ← h2, hxy]
  · intro a ha
    simp only [invPermL, List.mem_map, List.mem_range] at ha
    obtain ⟨m, hm, rfl⟩ := ha
    rw [hp.len] at hm
    have := getD_invPermL_lt hp hm
    rwa [invPermL_getD (hp.len ▸ hm)] at this

theorem invPermL_invPermL {p : List Nat} {n : Nat} (hp : IsPermOf p n) :
    invPermL (invPermL p) = p := by
  have hq : IsPermOf (invPermL p) n := hp.invPermL_isPerm
  apply List.ext_getElem
  · rw [invPermL_length, invPermL_length]
  · intro m h1 h2
    have hm : m < n := hp.len ▸ h2
    have hjq : p.getD m 0 < (invPermL p).length := by
      rw [invPermL_length, hp.len]
      exact hp.getD_lt hm
    have hfi : (invPermL p).findIdx (fun a => a == m) = p.getD m 0 := by
      have h := findIdx_beq_self hq.nodup hjq
      rw [← getD_of_lt (invPermL p) 0 hjq, invPermL_getD_getD hp hm] at h
      exact h
    rw [← getD_of_lt _ 0 h1, ← getD_of_lt _ 0 h2,
      invPermL_getD (by rw [invPermL_length, hp.len]; exact hm), hfi]

theorem permute_invPermL_permute {p : List Nat} {n : Nat} (hp : IsPermOf p n)
    (l : List Nat) (hl : l.length = n) :
    permute (invPermL p) (permute p l) = l := by
  apply List.ext_getElem
  · rw [permute_length, invPermL_length, hp.len, hl]
  · intro m h1 h2
    have hm : m < n := hl ▸ h2
    have hmq : m < (invPermL p).length := by rw [invPermL_length, hp.len]; exact hm
    rw [← getD_of_lt _ 0 h1, ← getD_of_lt _ 0 h2, permute_getD _ _ hmq,
      permute_getD _ _ (by rw [hp.len]; exact getD_invPermL_lt hp hm),
      getD_getD_invPermL hp hm]

theorem IsPermOf.permute_perm {p : List Nat} {n : Nat} (hp : IsPermOf p n)
    {l : List Nat} (hl : l.length = n) : (permute p l).Perm l := by
  have h1 : (permute p l).Perm ((List.range n).map (fun i => l.getD i 0)) :=
    List.Perm.map _ hp
  rw [← hl] at h1
  rwa [map_getD_range l 0] at h1

theorem prod_permute {p : List Nat} {n : Nat} (hp : IsPermOf p n) {l : List Nat}
    (hl : l.length = n) : (permute p l).prod = l.prod :=
  (hp.permute_perm hl).prod_eq

/-! ## Lemmas about row-major index arithmetic -/

theorem validIdx_length : ∀ {ds js : List Nat}, validIdx ds js = true → js.length = ds.length
  | [], [], _ => rfl
  | _ :: ds, j :: js, h => by
    simp only [validIdx, Bool.and_eq_true, decide_eq_true_eq] at h
    simp [validIdx_length h.2]

theorem validIdx_getD_lt : ∀ {ds js : List Nat}, validIdx ds js = true →
    ∀ t, t < ds.length → js.getD t 0 < ds.getD t 0
  | d :: ds, j :: js, h, 0, _ => by
    simp only [validIdx, Bool.and_eq_true, decide_eq_true_eq] at h
    simpa using h.1
  | d :: ds, j :: js, h, t + 1, ht => by
    simp only [validIdx, Bool.and_eq_true, decide_eq_true_eq] at h
    simpa using validIdx_getD_lt h.2 t (by simpa using ht)

theorem validIdx_of_getD_lt : ∀ {ds js : List Nat}, js.length = ds.length →
    (∀ t, t < ds.length → js.getD t 0 < ds.getD t 0) → validIdx ds js = true
  | [], [], _, _ => rfl
  | d :: ds, j :: js, hl, hlt => by
    simp only [validIdx, Bool.and_eq_true, decide_eq_true_eq]
    refine ⟨by simpa using hlt 0 (by simp), ?_⟩
    exact validIdx_of_getD_lt (by simpa using hl)
      (fun t ht => by simpa using hlt (t + 1) (by simpa using ht))

theorem validIdx_prod_pos : ∀ {ds js : List Nat}, validIdx ds js = true → 0 < ds.prod
  | [], [], _ => Nat.one_pos
  | d :: ds, j :: js, h => by
    simp only [validIdx, Bool.and_eq_true, decide_eq_true_eq] at h
    rw [List.prod_cons]
    exact Nat.mul_pos (Nat.lt_of_le_of_lt (Nat.zero_le j) h.1) (validIdx_prod_pos h.2)

theorem flatIdx_lt_prod : ∀ {ds js : List Nat}, validIdx ds js = true →
    flatIdx ds js < ds.prod
  | [], [], _ => Nat.one_pos
  | d :: ds, j :: js, h => by
    simp only [validIdx, Bool.and_eq_true, decide_eq_true_eq] at h
    rw [flatIdx, List.prod_cons]
    have h1 : flatIdx ds js < ds.prod := flatIdx_lt_prod h.2
    have h2 : j * ds.prod + flatIdx ds js < (j + 1) * ds.prod := by
      rw [Nat.succ_mul]
      omega
    exact Nat.lt_of_lt_of_le h2 (Nat.mul_le_mul_right _ h.1)

theorem multiIdx_length : ∀ (ds : List Nat) (k : Nat), (multiIdx ds k).length = ds.length
  | [], _ => rfl
  | _ :: ds, k => by rw [multiIdx]; simp [multiIdx_length ds]

theorem multiIdx_valid : ∀ {ds : List Nat} {k : Nat}, k < ds.prod →
    validIdx ds (multiIdx ds k) = true
  | [], k, _ => rfl
  | d :: ds, k, hk => by
    rw [List.prod_cons] at hk
    have hP : 0 < ds.prod := by
      rcases Nat.eq_zero_or_pos ds.prod with h0 | h0
      · rw [h0, Nat.mul_zero] at hk; exact absurd hk (Nat.not_lt_zero k)
      · exact h0
    rw [multiIdx]
    simp only [validIdx, Bool.and_eq_true, decide_eq_true_eq]
    refine ⟨?_, multiIdx_valid (Nat.mod_lt k hP)⟩
    rw [Nat.div_lt_iff_lt_mul hP]
    exact hk

theorem flatIdx_multiIdx : ∀ {ds : List Nat} {k : Nat}, k < ds.prod →
    flatIdx ds (multiIdx ds k) = k
  | [], k, hk => by
    rw [List.prod_nil] at hk
    have hk0 : k = 0 := by omega
    subst hk0
    rfl
  | d :: ds, k, hk => by
    rw [List.prod_cons] at hk
    have hP : 0 < ds.prod := by
      rcases Nat.eq_zero_or_pos ds.prod with h0 | h0
      · rw [h0, Nat.mul_zero] at hk; exact absurd hk (Nat.not_lt_zero k)
      · exact h0
    rw [multiIdx, flatIdx, flatIdx_multiIdx (Nat.mod_lt k hP), Nat.mul_comm]
    exact Nat.div_add_mod k ds.prod

theorem multiIdx_flatIdx : ∀ {ds js : List Nat}, validIdx ds js = true →
    multiIdx ds (flatIdx ds js) = js
  | [], [], _ => rfl
  | d :: ds, j :: js, h => by
    simp only [validIdx, Bool.and_eq_true, decide_eq_true_eq] at h
    have hP : 0 < ds.prod := validIdx_prod_pos h.2
    have hr : flatIdx ds js < ds.prod := flatIdx_lt_prod h.2
    rw [flatIdx, multiIdx]
    have hdiv : (j * ds.prod + flatIdx ds js) / ds.prod = j := by
      rw [Nat.mul_comm j ds.prod, Nat.mul_add_div hP, Nat.div_eq_of_lt hr, Nat.add_zero]
    have hmod : (j * ds.prod + flatIdx ds js) % ds.prod = flatIdx ds js := by
      rw [Nat.mul_comm j ds.prod, Nat.mul_add_mod, Nat.mod_eq_of_lt hr]
    rw [hdiv, hmod, multiIdx_flatIdx h.2]

theorem validIdx_permute {p : List Nat} {n : Nat} (hp : IsPermOf p n)
    {ds js : List Nat} (hd : ds.length = n) (hv : validIdx ds js = true) :
    validIdx (permute p ds) (permute p js) = true := by
  refine validIdx_of_getD_lt (by rw [permute_length, permute_length]) ?_
  intro t ht
  rw [permute_length] at ht
  rw [permute_getD _ _ ht, permute_getD _ _ ht]
  exact validIdx_getD_lt hv _ (hd ▸ hp.getD_lt (hp.len ▸ ht))

/-! ## Lemmas about scatterL -/

theorem scatterL_length : ∀ (idx vals init : List Nat),
    (scatterL idx vals init).length = init.length
  | [], _, _ => rfl
  | _ :: _, [], _ => rfl
  | _ :: as, _ :: vs, init => by
    rw [scatterL, scatterL_length as vs, List.length_set]

theorem scatterL_getD_not_mem : ∀ {idx vals init : List Nat} {m : Nat}, m ∉ idx →
    (scatterL idx vals init).getD m 0 = init.getD m 0
  | [], _, _, _, _ => rfl
  | _ :: _, [], _, _, _ => rfl
  | a :: as, v :: vs, init, m, hm => by
    have hma : m ≠ a := fun he => hm (he ▸ List.mem_cons_self a as)
    have hmas : m ∉ as := fun he => hm (List.mem_cons_of_mem a he)
    rw [scatterL, scatterL_getD_not_mem hmas]
    simp [List.getD_eq_getElem?_getD, List.getElem?_set_ne (Ne.symm hma)]

theorem scatterL_getD_nodup : ∀ {idx vals init : List Nat}, idx.Nodup →
    ∀ {j : Nat}, j < idx.length → j < vals.length → idx.getD j 0 < init.length →
    (scatterL idx vals init).getD (idx.getD j 0) 0 = vals.getD j 0
  | a :: as, v :: vs, init, hnd, 0, _, _, hi => by
    have hnas : a ∉ as := by
      rw [List.nodup_cons] at hnd
      exact hnd.1
    have ha : a < init.length := by simpa using hi
    rw [scatterL]
    simp only [List.getD_cons_zero] at hi ⊢
    rw [scatterL_getD_not_mem hnas]
    rw [getD_of_lt _ _ (by rw [List.length_set]; exact ha)]
    exact List.getElem_set_self (h := by rw [List.length_set]; exact ha)
  | a :: as, v :: vs, init, hnd, j + 1, hj, hjv, hi => by
    rw [List.nodup_cons] at hnd
    rw [scatterL]
    simp only [List.getD_cons_succ] at hi ⊢
    exact scatterL_getD_nodup hnd.2 (by simpa using hj) (by simpa using hjv)
      (by rw [List.length_set]; exact hi)

theorem scatterL_perm_eq {p : List Nat} {n : Nat} (hp : IsPermOf p n) {vals : List Nat}
    (hv : vals.length = n) :
    scatterL p vals (List.replicate n 0) = permute (invPermL p) vals := by
  apply List.ext_getElem
  · rw [scatterL_length, List.length_replicate, permute_length, invPermL_length, hp.len]
  · intro m h1 h2
    have hm : m < n := by
      rw [permute_length, invPermL_length, hp.len] at h2
      exact h2
    have hj : (invPermL p).getD m 0 < n := getD_invPermL_lt hp hm
    have hpj : p.getD ((invPermL p).getD m 0) 0 = m := getD_getD_invPermL hp hm
    rw [← getD_of_lt _ 0 h1, ← getD_of_lt _ 0 h2,
      permute_getD _ _ (by rw [invPermL_length, hp.len]; exact hm)]
    calc (scatterL p vals (List.replicate n 0)).getD m 0
        = (scatterL p vals (List.replicate n 0)).getD (p.getD ((invPermL p).getD m 0) 0) 0 := by
          rw [hpj]
      _ = vals.getD ((invPermL p).getD m 0) 0 := by
          exact scatterL_getD_nodup hp.nodup (hp.len ▸ hj) (hv ▸ hj)
            (by rw [hpj, List.length_replicate]; exact hm)

theorem scatterL_perm_range {p : List Nat} {n : Nat} (hp : IsPermOf p n) :
    scatterL p (List.range n) (List.replicate n 0) = invPermL p := by
  rw [scatterL_perm_eq hp (by simp)]
  apply List.ext_getElem
  · rw [permute_length, invPermL_length]
  · intro m h1 h2
    have hm : m < n := by
      rw [invPermL_length, hp.len] at h2
      exact h2
    have hj : (invPermL p).getD m 0 < n := getD_invPermL_lt hp hm
    rw [← getD_of_lt _ 0 h1, ← getD_of_lt _ 0 h2,
      permute_getD _ _ (by rw [invPermL_length, hp.len]; exact hm),
      getD_of_lt _ _ (by simpa using hj)]
    simp

/-! ## Lemmas about normalizeAxes and Transpose.make -/

theorem normalize_axis_index_ok_lt {ax : Int} {ndims a : Nat}
    (h : normalize_axis_index ax ndims = .ok a) : a < ndims := by
  rw [normalize_axis_index] at h
  split at h
  · cases h
  · rename_i hrange
    push_neg at hrange
    split at h <;> cases h
    · omega
    · rename_i hneg
      push_neg at hneg
      omega

theorem normalize_axis_index_ok_range {ax : Int} {ndims a : Nat}
    (h : normalize_axis_index ax ndims = .ok a) :
    ¬(ax < -(ndims : Int) ∨ (ndims : Int) ≤ ax) := by
  rw [normalize_axis_index] at h
  split at h
  · cases h
  · rename_i hrange
    exact hrange

theorem normalize_axis_index_error_eq {ax : Int} {ndims : Nat} {e : TransErr}
    (h : normalize_axis_index ax ndims = .error e) : e = .axisError := by
  rw [normalize_axis_index] at h
  split at h
  · cases h; rfl
  · split at h <;> cases h

theorem normalizeAxes_error_eq : ∀ {l : List Int} {ndims : Nat} {e : TransErr},
    normalizeAxes ndims l = .error e → e = .axisError := by
  intro l
  induction l with
  | nil =>
    intro ndims e h
    rw [normalizeAxes] at h
    cases h
  | cons ax rest ih =>
    intro ndims e h
    rw [normalizeAxes] at h
    split at h
    · rename_i e1 h1
      cases h
      exact normalize_axis_index_error_eq h1
    · rename_i a h1
      split at h
      · rename_i e2 h2
        cases h
        exact ih h2
      · cases h

theorem normalizeAxes_ok_lt : ∀ {l : List Int} {ndims : Nat} {axes : List Nat},
    normalizeAxes ndims l = .ok axes → ∀ a ∈ axes, a < ndims := by
  intro l
  induction l with
  | nil =>
    intro ndims axes h
    rw [normalizeAxes] at h
    cases h
    intro a ha
    cases ha
  | cons ax rest ih =>
    intro ndims axes h
    rw [normalizeAxes] at h
    split at h
    · cases h
    · rename_i a h1
      split at h
      · cases h
      · rename_i as h2
        cases h
        intro b hb
        rcases List.mem_cons.mp hb with rfl | hbs
        · exact normalize_axis_index_ok_lt h1
        · exact ih h2 b hbs

theorem normalizeAxes_ok_of_mem : ∀ {l : List Int} {ndims : Nat} {axes : List Nat},
    normalizeAxes ndims l = .ok axes →
    ∀ ax ∈ l, ¬(ax < -(ndims : Int) ∨ (ndims : Int) ≤ ax) := by
  intro l
  induction l with
  | nil =>
    intro ndims axes _ ax hax
    cases hax
  | cons ax0 rest ih =>
    intro ndims axes h
    rw [normalizeAxes] at h
    split at h
    · cases h
    · rename_i a h1
      split at h
      · cases h
      · rename_i as h2
        cases h
        intro ax hax
        rcases List.mem_cons.mp hax with rfl | haxs
        · exact normalize_axis_index_ok_range h1
        · exact ih h2 ax haxs

theorem make_ok_fields {dims : List Nat} {axesIn : List Int} {T : Transpose}
    (hmk : Transpose.make dims axesIn = .ok T) :
    T.dims = dims ∧ normalizeAxes dims.length axesIn = .ok T.axes ∧
    T.axes.dedup.length = dims.length ∧
    (T.axes.length = dims.length ∨ dims.length = 1) ∧
    T.axesd = scatterL T.axes
      (if T.axes.length = dims.length then List.range dims.length
       else List.replicate T.axes.length 0) (List.replicate dims.length 0) ∧
    T.dimsd = scatterL T.axesd dims (List.replicate dims.length 0) ∧
    T.shape = (T.dimsd.prod, T.dims.prod) := by
  rw [Transpose.make] at hmk
  split at hmk
  · cases hmk
  · rename_i axes hna
    by_cases h1 : axes.dedup.length ≠ dims.length
    · rw [if_pos h1] at hmk; cases hmk
    · rw [if_neg h1] at hmk
      push_neg at h1
      by_cases h2 : axes.length = dims.length ∨ dims.length = 1
      · rw [if_pos h2] at hmk
        injection hmk with hT
        subst hT
        exact ⟨rfl, hna, h1, h2, rfl, rfl, rfl⟩
      · rw [if_neg h2] at hmk; cases hmk

theorem make_ok_perm {dims : List Nat} {axesIn : List Int} {T : Transpose}
    (hmk : Transpose.make dims axesIn = .ok T)
    (hp : IsPermOf T.axes dims.length) :
    T.dims = dims ∧ T.axesd = invPermL T.axes ∧ T.dimsd = permute T.axes dims ∧
    T.shape = (T.dimsd.prod, T.dims.prod) := by
  obtain ⟨hd, _, _, _, haxd, hdmd, hsh⟩ := make_ok_fields hmk
  rw [if_pos hp.len] at haxd
  have haxd2 : T.axesd = invPermL T.axes := by
    rw [haxd, scatterL_perm_range hp]
  have hdmd2 : T.dimsd = permute T.axes dims := by
    rw [hdmd, haxd2, scatterL_perm_eq hp.invPermL_isPerm rfl, invPermL_invPermL hp]
  exact ⟨hd, haxd2, hdmd2, hsh⟩

/-! ## Core lemmas about npTransposeFlat -/

theorem npTransposeFlat_length {α : Type} [Inhabited α] (dims axes : List Nat)
    (x : List α) : (npTransposeFlat dims axes x).length = (permute axes dims).prod := by
  simp [npTransposeFlat]

theorem npTransposeFlat_getD {α : Type} [Inhabited α] (dims axes : List Nat) (x : List α)
    {k : Nat} (hk : k < (permute axes dims).prod) :
    (npTransposeFlat dims axes x).getD k default =
      x.getD (flatIdx dims (permute (invPermL axes) (multiIdx (permute axes dims) k)))
        default := by
  rw [getD_of_lt _ _ (by rw [npTransposeFlat_length]; exact hk)]
  simp [npTransposeFlat]

theorem npTransposeFlat_entry {α : Type} [Inhabited α] {dims p : List Nat} {n : Nat}
    (hp : IsPermOf p n) (hd : dims.length = n) {i : List Nat}
    (hi : validIdx dims i = true) (x : List α) :
    (npTransposeFlat dims p x).getD (flatIdx (permute p dims) (permute p i)) default
      = x.getD (flatIdx dims i) default := by
  have hvi : validIdx (permute p dims) (permute p i) = true := validIdx_permute hp hd hi
  have hk : flatIdx (permute p dims) (permute p i) < (permute p dims).prod :=
    flatIdx_lt_prod hvi
  rw [npTransposeFlat_getD _ _ _ hk, multiIdx_flatIdx hvi,
    permute_invPermL_permute hp i (by rw [validIdx_length hi, hd])]

theorem npTransposeFlat_roundtrip {α : Type} [Inhabited α] {dims p : List Nat} {n : Nat}
    (hp : IsPermOf p n) (hd : dims.length = n) (x : List α) (hx : x.length = dims.prod) :
    npTransposeFlat (permute p dims) (invPermL p) (npTransposeFlat dims p x) = x := by
  have hiv : permute (invPermL p) (permute p dims) = dims :=
    permute_invPermL_permute hp dims hd
  apply List.ext_getElem
  · rw [npTransposeFlat_length, hiv, hx]
  · intro k h1 h2
    have hk : k < dims.prod := hx ▸ h2
    have hk2 : k < (permute (invPermL p) (permute p dims)).prod := by rw [hiv]; exact hk
    rw [← getD_of_lt _ default h1, ← getD_of_lt _ default h2,
      npTransposeFlat_getD _ _ _ hk2, hiv, invPermL_invPermL hp]
    rw [npTransposeFlat_entry hp hd (multiIdx_valid hk), flatIdx_multiIdx hk]

/-! ## Further helper lemmas for the Transpose claims -/

theorem scatterL_zero_fix : ∀ {idx vals : List Nat}, (∀ a ∈ idx, a = 0) →
    (∀ v ∈ vals, v = 0) → scatterL idx vals [0] = [0]
  | [], _, _, _ => rfl
  | _ :: _, [], _, _ => rfl
  | a :: as, v :: vs, ha, hv => by
    rw [scatterL, ha a (List.mem_cons_self a as), hv v (List.mem_cons_self v vs)]
    exact scatterL_zero_fix (fun b hb => ha b (List.mem_cons_of_mem a hb))
      (fun w hw => hv w (List.mem_cons_of_mem v hw))

theorem nodup_of_dedup_length {l : List Nat} (h : l.dedup.length = l.length) :
    l.Nodup := by
  have heq : l.dedup = l := l.dedup_sublist.eq_of_length h
  rw [← heq]
  exact l.nodup_dedup

theorem make_ok_axes_perm {dims : List Nat} {axesIn : List Int} {T : Transpose}
    (hmk : Transpose.make dims axesIn = .ok T)
    (hlen : T.axes.length = dims.length) : IsPermOf T.axes dims.length := by
  obtain ⟨_, hna, hded, _, _, _, _⟩ := make_ok_fields hmk
  exact isPermOf_of_nodup_lt (nodup_of_dedup_length (by rw [hded, hlen]))
    hlen (normalizeAxes_ok_lt hna)

theorem dedup_missing {axes : List Nat} {n : Nat} (hlt : ∀ a ∈ axes, a < n)
    (hne : axes.dedup.length ≠ n) : ∃ m, m < n ∧ m ∉ axes := by
  by_contra hcon
  push_neg at hcon
  have hsub1 : axes.dedup ⊆ List.range n := fun a ha =>
    List.mem_range.mpr (hlt a (List.mem_dedup.mp ha))
  have hle1 : axes.dedup.length ≤ n := by
    have := (axes.nodup_dedup.subperm hsub1).length_le
    simpa using this
  have hsub2 : List.range n ⊆ axes.dedup := fun a ha =>
    List.mem_dedup.mpr (hcon a (List.mem_range.mp ha))
  have hle2 : n ≤ axes.dedup.length := by
    have := ((List.nodup_range n).subperm hsub2).length_le
    simpa using this
  omega

theorem dedup_full {axes : List Nat} {n : Nat} (hlt : ∀ a ∈ axes, a < n)
    (heq : axes.dedup.length = n) : ∀ m, m < n → m ∈ axes := by
  have hperm : IsPermOf axes.dedup n :=
    isPermOf_of_nodup_lt axes.nodup_dedup heq
      (fun a ha => hlt a (List.mem_dedup.mp ha))
  intro m hm
  exact List.mem_dedup.mp (hperm.mem_iff_lt.mpr hm)

/-! ## Claim theorems for the Transpose operator -/

/-- Claim C1: for every valid Transpose operator (non-empty `dims`, normalized
`axes` a permutation of `range (len dims)`) and every flat input `x` of length
`prod dims`, the adjoint of the forward application returns `x` exactly:
`_rmatvec(_matvec(x)) == x`. -/
theorem transpose_roundtrip {α : Type} [Inhabited α] (dims : List Nat)
    (axesIn : List Int) (T : Transpose) (hmk : Transpose.make dims axesIn = .ok T)
    (hne : dims ≠ []) (hp : IsPermOf T.axes dims.length) (x : List α)
    (hx : x.length = dims.prod) : T.rmatvec (T.matvec x) = x := by
  obtain ⟨hd, haxd2, hdmd2, _⟩ := make_ok_perm hmk hp
  rw [Transpose.matvec, Transpose.rmatvec, hd, haxd2, hdmd2]
  exact npTransposeFlat_roundtrip hp rfl x hx

/-- Witness for C1 at `dims = (2,3)`, `axes = (1,0)`,
`x = [7,1,2,3,4,5]`. -/
theorem transpose_roundtrip_witness :
    (⟨[2, 3], [1, 0], [1, 0], [3, 2], (6, 6)⟩ : Transpose).rmatvec
      ((⟨[2, 3], [1, 0], [1, 0], [3, 2], (6, 6)⟩ : Transpose).matvec
        ([7, 1, 2, 3, 4, 5] : List Int)) = [7, 1, 2, 3, 4, 5] :=
  transpose_roundtrip [2, 3] [1, 0] ⟨[2, 3], [1, 0], [1, 0], [3, 2], (6, 6)⟩ rfl
    (by decide) (by decide) [7, 1, 2, 3, 4, 5] rfl

/-- Claim C5: for every valid construction (normalized axes a permutation),
the constructor computes `axesd` with `axesd[axes[i]] = i`, computes `dimsd`
with `dimsd[axesd[i]] = dims[i]` (equivalently `dimsd = permute axes dims`,
so that moving entry `i` of `dimsd` to position `axes[i]` recovers `dims`),
and sets `shape = (prod dimsd, prod dims)`. -/
theorem transpose_init_spec (dims : List Nat) (axesIn : List Int) (T : Transpose)
    (hmk : Transpose.make dims axesIn = .ok T)
    (hp : IsPermOf T.axes dims.length) :
    (∀ i, i < dims.length → T.axesd.getD (T.axes.getD i 0) 0 = i) ∧
    (∀ i, i < dims.length → T.dimsd.getD (T.axesd.getD i 0) 0 = T.dims.getD i 0) ∧
    T.dimsd = permute T.axes T.dims ∧
    T.shape = (T.dimsd.prod, T.dims.prod) := by
  obtain ⟨hd, haxd2, hdmd2, hsh⟩ := make_ok_perm hmk hp
  subst hd
  refine ⟨?_, ?_, hdmd2, hsh⟩
  · intro i hi
    rw [haxd2]
    exact invPermL_getD_getD hp hi
  · intro i hi
    rw [haxd2, hdmd2,
      permute_getD _ _ (by rw [hp.len]; exact getD_invPermL_lt hp hi),
      getD_getD_invPermL hp hi]

/-- Witness for C5 at `dims = (2,3,4)`, `axes = (1,2,0)`. -/
theorem transpose_init_spec_witness :
    (∀ i, i < 3 →
      ([2, 0, 1] : List Nat).getD (([1, 2, 0] : List Nat).getD i 0) 0 = i) ∧
    (∀ i, i < 3 →
      ([3, 4, 2] : List Nat).getD (([2, 0, 1] : List Nat).getD i 0) 0 =
        ([2, 3, 4] : List Nat).getD i 0) ∧
    ([3, 4, 2] : List Nat) = permute [1, 2, 0] [2, 3, 4] ∧
    ((24 : Nat), (24 : Nat)) = (([3, 4, 2] : List Nat).prod, ([2, 3, 4] : List Nat).prod) :=
  transpose_init_spec [2, 3, 4] [1, 2, 0]
    ⟨[2, 3, 4], [1, 2, 0], [2, 0, 1], [3, 4, 2], (24, 24)⟩ rfl (by decide)

/-- Claim C6 counterexample: over `dims = (5,)` the normalized axes `(0, 0)`
contain a duplicate, yet construction succeeds — the
`ValueError("axes must contain each direction once")` is not raised, because
`len(np.unique([0, 0])) == 1 == ndims`.  So the documented error is not
raised "exactly when" the axes contain a duplicate or missing index. -/
theorem transpose_axes_check_counterexample :
    (¬ ([0, 0] : List Nat).Nodup) ∧
    Transpose.make [5] [0, 0] = .ok ⟨[5], [0, 0], [0], [5], (5, 5)⟩ ∧
    Transpose.make [5] [0, 0] ≠ .error .valueError := by
  refine ⟨by decide, rfl, ?_⟩
  intro h
  rw [show Transpose.make [5] [0, 0] =
    .ok ⟨[5], [0, 0], [0], [5], (5, 5)⟩ from rfl] at h
  exact Except.noConfusion h

/-- Claim C6 (amended): the `ValueError("axes must contain each direction
once")` is raised exactly when the axes all normalize but some index of
`range (len dims)` is missing from the normalized sequence (equivalently the
number of distinct normalized axes differs from `len dims`); a duplicate is
only caught through the index it forces to be missing, which can fail to
happen when `len axes > len dims`.  In particular `axes = (0, 0)` over
`dims = (3, 4)` fails with this error. -/
theorem transpose_axes_check (dims : List Nat) (axesIn : List Int) :
    (Transpose.make dims axesIn = .error .valueError ↔
      ∃ axes, normalizeAxes dims.length axesIn = .ok axes ∧
        ∃ m, m < dims.length ∧ m ∉ axes) ∧
    Transpose.make [3, 4] [0, 0] = .error .valueError := by
  refine ⟨?_, rfl⟩
  rw [Transpose.make]
  rcases hna : normalizeAxes dims.length axesIn with e | axes
  · simp only [hna]
    constructor
    · intro h
      injection h with he
      rw [normalizeAxes_error_eq hna] at he
      cases he
    · rintro ⟨axes, hok, -⟩
      cases hok
  · simp only [hna]
    by_cases h1 : axes.dedup.length ≠ dims.length
    · rw [if_pos h1]
      constructor
      · intro _
        obtain ⟨m, hm, hnm⟩ := dedup_missing (normalizeAxes_ok_lt hna) h1
        exact ⟨axes, rfl, m, hm, hnm⟩
      · intro _
        rfl
    · rw [if_neg h1]
      push_neg at h1
      constructor
      · intro h
        split at h
        · cases h
        · cases h
      · rintro ⟨axes2, hok, m, hm, hnm⟩
        cases hok
        exact absurd (dedup_full (normalizeAxes_ok_lt hna) h1 m hm) hnm

/-- Witness for the amended C6 at `dims = (3, 4)`, `axes = (0, 0)`
(the claim's own example input). -/
theorem transpose_axes_check_witness :
    Transpose.make [3, 4] [0, 0] = .error .valueError :=
  (transpose_axes_check [3, 4] [0, 0]).2

/-- Claim C8: the forward application of a valid Transpose operator permutes
the row-major layout: its output has length `prod dimsd`, its entry at the
flat position of the permuted multi-index `permute axes i` (in shape `dimsd`)
is the input entry at the flat position of `i` (in shape `dims`), and in
particular for `dims=(2,3)`, `axes=(1,0)` it maps `[0,1,2,3,4,5]` to
`[0,3,1,4,2,5]`. -/
theorem transpose_matvec_spec {α : Type} [Inhabited α] (dims : List Nat)
    (axesIn : List Int) (T : Transpose) (hmk : Transpose.make dims axesIn = .ok T)
    (hp : IsPermOf T.axes dims.length) (x : List α) (hx : x.length = dims.prod) :
    ((T.matvec x).length = T.dimsd.prod ∧
      ∀ i, validIdx dims i = true →
        (T.matvec x).getD (flatIdx T.dimsd (permute T.axes i)) default =
          x.getD (flatIdx dims i) default) ∧
    (Transpose.make [2, 3] [1, 0]).map
      (fun S => S.matvec ([0, 1, 2, 3, 4, 5] : List Int)) = .ok [0, 3, 1, 4, 2, 5] := by
  obtain ⟨hd, _, hdmd2, _⟩ := make_ok_perm hmk hp
  subst hd
  refine ⟨⟨?_, ?_⟩, rfl⟩
  · rw [Transpose.matvec, npTransposeFlat_length, hdmd2]
  · intro i hi
    rw [Transpose.matvec, hdmd2]
    exact npTransposeFlat_entry hp rfl hi x

/-- Witness for C8 at `dims = (2,3)`, `axes = (1,0)`,
`x = [0,1,2,3,4,5]`, `i = (1,2)`. -/
theorem transpose_matvec_spec_witness :
    (((⟨[2, 3], [1, 0], [1, 0], [3, 2], (6, 6)⟩ : Transpose).matvec
        ([0, 1, 2, 3, 4, 5] : List Int)).length = ([3, 2] : List Nat).prod ∧
      ∀ i, validIdx [2, 3] i = true →
        ((⟨[2, 3], [1, 0], [1, 0], [3, 2], (6, 6)⟩ : Transpose).matvec
          ([0, 1, 2, 3, 4, 5] : List Int)).getD
            (flatIdx [3, 2] (permute [1, 0] i)) default =
          ([0, 1, 2, 3, 4, 5] : List Int).getD (flatIdx [2, 3] i) default) ∧
    (Transpose.make [2, 3] [1, 0]).map
      (fun S => S.matvec ([0, 1, 2, 3, 4, 5] : List Int)) = .ok [0, 3, 1, 4, 2, 5] :=
  transpose_matvec_spec [2, 3] [1, 0] ⟨[2, 3], [1, 0], [1, 0], [3, 2], (6, 6)⟩ rfl
    (by decide) [0, 1, 2, 3, 4, 5] rfl

/-- Claim C9: every successfully constructed Transpose operator satisfies
`prod dimsd = prod dims`, so its `shape` is square. -/
theorem transpose_shape_square (dims : List Nat) (axesIn : List Int) (T : Transpose)
    (hmk : Transpose.make dims axesIn = .ok T) :
    T.dimsd.prod = T.dims.prod ∧ T.shape.1 = T.shape.2 := by
  obtain ⟨hd, hna, hded, hbr, haxd, hdmd, hsh⟩ := make_ok_fields hmk
  subst hd
  have hprod : T.dimsd.prod = T.dims.prod := by
    by_cases hlen : T.axes.length = T.dims.length
    · have hperm := make_ok_axes_perm hmk hlen
      obtain ⟨_, _, hdmd2, _⟩ := make_ok_perm hmk hperm
      rw [hdmd2]
      exact prod_permute hperm rfl
    · have h1 : T.dims.length = 1 := hbr.resolve_left hlen
      obtain ⟨d, hd1⟩ := List.length_eq_one.mp h1
      have haxz : ∀ a ∈ T.axes, a = 0 := fun a ha =>
        Nat.lt_one_iff.mp (h1 ▸ normalizeAxes_ok_lt hna a ha)
      rw [if_neg hlen] at haxd
      have haxd0 : T.axesd = [0] := by
        rw [haxd, h1]
        exact scatterL_zero_fix haxz (fun v hv => List.eq_of_mem_replicate hv)
      have hdd : T.dimsd = T.dims := by
        rw [hdmd, haxd0, h1, hd1]
        rfl
      rw [hdd]
  exact ⟨hprod, by rw [hsh, hprod]⟩

/-- Witness for C9 at `dims = (5,)`, `axes = (0, 0)` (the degenerate
successful construction) . -/
theorem transpose_shape_square_witness :
    ([5] : List Nat).prod = ([5] : List Nat).prod ∧
      ((5 : Nat), (5 : Nat)).1 = ((5 : Nat), (5 : Nat)).2 :=
  transpose_shape_square [5] [0, 0] ⟨[5], [0, 0], [0], [5], (5, 5)⟩ rfl

/-- Claim C10: any axis outside `[-len dims, len dims)` makes construction
fail with numpy's AxisError from `normalize_axis_index`, a failure mode
distinct from (and checked before) the documented
`ValueError("axes must contain each direction once")`. -/
theorem transpose_axis_range_check (dims : List Nat) (axesIn : List Int)
    (h : ∃ ax ∈ axesIn, ax < -(dims.length : Int) ∨ (dims.length : Int) ≤ ax) :
    Transpose.make dims axesIn = .error .axisError := by
  obtain ⟨ax, hmem, hout⟩ := h
  rw [Transpose.make]
  rcases hna : normalizeAxes dims.length axesIn with e | axes
  · simp only [hna]
    rw [normalizeAxes_error_eq hna]
  · exact absurd hout (normalizeAxes_ok_of_mem hna ax hmem)

/-- Witness for C10 at `dims = (3, 4)`, `axes = (2, 0)` (axis 2 out of
range for a rank-2 array, even though `(2, 0)` also misses index 1). -/
theorem transpose_axis_range_check_witness :
    Transpose.make [3, 4] [2, 0] = .error .axisError :=
  transpose_axis_range_check [3, 4] [2, 0] ⟨2, by decide, by decide⟩

/-! ## Lemmas about the matrix primitives -/

theorem dotl_eq_sum {R : Type} [CommRing R] : ∀ {u v : List R} {n : Nat},
    u.length = n → v.length = n →
    dotl u v = ∑ j ∈ Finset.range n, u.getD j 0 * v.getD j 0 := by
  intro u
  induction u with
  | nil =>
    intro v n hu hv
    rw [← hu]
    simp [dotl]
  | cons a u ih =>
    intro v n hu hv
    cases v with
    | nil =>
      rw [← hu] at hv
      cases hv
    | cons b v =>
      cases n with
      | zero => cases hu
      | succ k =>
        have hstep : dotl (a :: u) (b :: v) = a * b + dotl u v := by
          simp [dotl]
        rw [hstep, Finset.sum_range_succ']
        simp only [List.getD_cons_succ, List.getD_cons_zero]
        rw [ih (by simpa using hu) (by simpa using hv), add_comm]

theorem vdotl_eq_sum {R : Type} [CommRing R] [StarRing R] : ∀ {u v : List R} {n : Nat},
    u.length = n → v.length = n →
    vdotl u v = ∑ j ∈ Finset.range n, star (u.getD j 0) * v.getD j 0 := by
  intro u
  induction u with
  | nil =>
    intro v n hu hv
    rw [← hu]
    simp [vdotl]
  | cons a u ih =>
    intro v n hu hv
    cases v with
    | nil =>
      rw [← hu] at hv
      cases hv
    | cons b v =>
      cases n with
      | zero => cases hu
      | succ k =>
        have hstep : vdotl (a :: u) (b :: v) = star a * b + vdotl u v := by
          simp [vdotl]
        rw [hstep, Finset.sum_range_succ']
        simp only [List.getD_cons_succ, List.getD_cons_zero]
        rw [ih (by simpa using hu) (by simpa using hv), add_comm]

theorem ncols_eq {R : Type} {A : List (List R)} {m n : Nat}
    (hwf : wellFormed A m n) (hm : 0 < m) : ncols A = n := by
  cases A with
  | nil =>
    rw [← hwf.1] at hm
    cases hm
  | cons r rest => exact hwf.2 r (List.mem_cons_self r rest)

theorem row_length {R : Type} {A : List (List R)} {m n : Nat}
    (hwf : wellFormed A m n) {i : Nat} (hi : i < A.length) :
    (A.getD i []).length = n := by
  rw [getD_of_lt _ _ hi]
  exact hwf.2 _ (A.getElem_mem hi)

theorem matVec_length {R : Type} [Mul R] [Add R] [Zero R] (A : List (List R))
    (x : List R) : (matVec A x).length = A.length := by
  simp [matVec]

theorem matVec_getD {R : Type} [Mul R] [Add R] [Zero R] {A : List (List R)}
    {x : List R} {i : Nat} (hi : i < A.length) :
    (matVec A x).getD i 0 = dotl (A.getD i []) x := by
  rw [getD_of_lt _ _ (by rw [matVec_length]; exact hi), getD_of_lt _ _ hi]
  simp [matVec]

theorem trMat_length {R : Type} [Zero R] (A : List (List R)) :
    (trMat A).length = ncols A := by
  simp [trMat]

theorem trMat_getD {R : Type} [Zero R] {A : List (List R)} {j : Nat}
    (hj : j < ncols A) :
    (trMat A).getD j [] = A.map (fun r => r.getD j 0) := by
  rw [getD_of_lt _ _ (by rw [trMat_length]; exact hj)]
  simp [trMat]

theorem trMat_row_length {R : Type} [Zero R] {A : List (List R)} {j : Nat}
    (hj : j < ncols A) : ((trMat A).getD j []).length = A.length := by
  rw [trMat_getD hj]
  simp

theorem trMat_getD_getD {R : Type} [Zero R] {A : List (List R)} {j i : Nat}
    (hj : j < ncols A) (hi : i < A.length) :
    ((trMat A).getD j []).getD i 0 = (A.getD i []).getD j 0 := by
  rw [trMat_getD hj, getD_of_lt _ _ (by simpa using hi), getD_of_lt A _ hi]
  simp

theorem matMat_length {R : Type} [Mul R] [Add R] [Zero R] (A B : List (List R)) :
    (matMat A B).length = A.length := by
  simp [matMat]

theorem matMat_getD {R : Type} [Mul R] [Add R] [Zero R] {A B : List (List R)}
    {i : Nat} (hi : i < A.length) :
    (matMat A B).getD i [] = (trMat B).map (fun c => dotl (A.getD i []) c) := by
  rw [getD_of_lt _ _ (by rw [matMat_length]; exact hi), getD_of_lt A _ hi]
  simp [matMat]

theorem matMat_row_length {R : Type} [Mul R] [Add R] [Zero R] {A B : List (List R)}
    {i : Nat} (hi : i < A.length) :
    ((matMat A B).getD i []).length = ncols B := by
  rw [matMat_getD hi]
  simp [trMat_length]

theorem matMat_getD_getD {R : Type} [Mul R] [Add R] [Zero R] {A B : List (List R)}
    {i k : Nat} (hi : i < A.length) (hk : k < ncols B) :
    ((matMat A B).getD i []).getD k 0 = dotl (A.getD i []) ((trMat B).getD k []) := by
  rw [matMat_getD hi,
    getD_of_lt ((trMat B).map (fun c => dotl (A.getD i []) c)) (0 : R)
      (by rw [List.length_map, trMat_length]; exact hk),
    List.getElem_map, getD_of_lt (trMat B) [] (by rw [trMat_length]; exact hk)]

theorem reshape2_length {R : Type} (x : List R) (m K : Nat) :
    (reshape2 x m K).length = m := by
  simp [reshape2]

theorem reshape2_getD_row {R : Type} {x : List R} {m K i : Nat} (hi : i < m) :
    (reshape2 x m K).getD i [] = (x.drop (i * K)).take K := by
  rw [getD_of_lt _ _ (by rw [reshape2_length]; exact hi)]
  simp [reshape2]

theorem reshape2_row_length {R : Type} {x : List R} {m K i : Nat}
    (hx : x.length = m * K) (hi : i < m) :
    ((reshape2 x m K).getD i []).length = K := by
  rw [reshape2_getD_row hi, List.length_take, List.length_drop, hx]
  have hmul : (i + 1) * K ≤ m * K := Nat.mul_le_mul_right K hi
  rw [Nat.succ_mul] at hmul
  omega

theorem reshape2_getD_getD {R : Type} [Zero R] {x : List R} {m K i t : Nat}
    (hi : i < m) (ht : t < K) :
    ((reshape2 x m K).getD i []).getD t 0 = x.getD (i * K + t) 0 := by
  rw [reshape2_getD_row hi, List.getD_eq_getElem?_getD,
    List.getElem?_take_of_lt ht, List.getElem?_drop, ← List.getD_eq_getElem?_getD]

theorem flatten_length_uniform {R : Type} : ∀ {L : List (List R)} {K : Nat},
    (∀ r ∈ L, r.length = K) → L.flatten.length = L.length * K
  | [], _, _ => by simp
  | r :: rest, K, h => by
    rw [List.flatten_cons, List.length_append,
      flatten_length_uniform (fun s hs => h s (List.mem_cons_of_mem r hs)),
      h r (List.mem_cons_self r rest), List.length_cons, Nat.succ_mul, Nat.add_comm]

theorem flatten_getD_uniform {R : Type} [Zero R] : ∀ {L : List (List R)} {K i t : Nat},
    (∀ r ∈ L, r.length = K) → i < L.length → t < K →
    L.flatten.getD (i * K + t) 0 = (L.getD i []).getD t 0
  | r :: rest, K, 0, t, h, _, ht => by
    rw [List.flatten_cons]
    simp only [Nat.zero_mul, Nat.zero_add, List.getD_cons_zero]
    rw [List.getD_eq_getElem?_getD,
      List.getElem?_append_left (by rw [h r (List.mem_cons_self r rest)]; exact ht),
      ← List.getD_eq_getElem?_getD]
  | r :: rest, K, i + 1, t, h, hi, ht => by
    have hrK : r.length = K := h r (List.mem_cons_self r rest)
    have harith : (i + 1) * K + t = r.length + (i * K + t) := by
      rw [hrK, Nat.succ_mul]
      omega
    rw [List.flatten_cons, List.getD_cons_succ, harith, List.getD_eq_getElem?_getD,
      List.getElem?_append_right (Nat.le_add_right _ _), Nat.add_sub_cancel_left,
      ← List.getD_eq_getElem?_getD]
    exact flatten_getD_uniform (fun s hs => h s (List.mem_cons_of_mem r hs))
      (by simpa using hi) ht

theorem sum_range_mul_split {R : Type} [CommRing R] (f : Nat → R) :
    ∀ (m K : Nat), ∑ u ∈ Finset.range (m * K), f u =
      ∑ i ∈ Finset.range m, ∑ t ∈ Finset.range K, f (i * K + t)
  | 0, K => by simp
  | m + 1, K => by
    rw [Nat.succ_mul, Finset.sum_range_add, sum_range_mul_split f m K,
      Finset.sum_range_succ]

theorem matMat_rows_length {R : Type} [Mul R] [Add R] [Zero R] (A B : List (List R)) :
    ∀ r ∈ matMat A B, r.length = ncols B := by
  intro r hr
  obtain ⟨a, _, rfl⟩ := List.mem_map.mp hr
  simp [trMat_length]

/-! ## Entrywise characterization of MatrixMult forward and adjoint -/

theorem mm_matvec_plain {R : Type} [CommRing R] {A : List (List R)} {m n : Nat}
    (hwf : wellFormed A m n) (hm : 0 < m) (Adt rdt : DType) {x : List R}
    (hx : x.length = n) :
    ((MatrixMult.make A Adt none rdt).matvec x).length = m ∧
    ∀ i, i < m →
      ((MatrixMult.make A Adt none rdt).matvec x).getD i 0 =
        ∑ j ∈ Finset.range n, (A.getD i []).getD j 0 * x.getD j 0 := by
  have hmv : (MatrixMult.make A Adt none rdt).matvec x = matVec A x := rfl
  rw [hmv]
  constructor
  · rw [matVec_length, hwf.1]
  · intro i hi
    have hiA : i < A.length := hwf.1 ▸ hi
    rw [matVec_getD hiA]
    exact dotl_eq_sum (row_length hwf hiA) hx

theorem mm_matvec_reshape {R : Type} [CommRing R] {A : List (List R)} {m n : Nat}
    (hwf : wellFormed A m n) (hm : 0 < m) (hn : 0 < n) (od : List Nat)
    (Adt rdt : DType) {x : List R} (hx : x.length = n * od.prod) :
    ((MatrixMult.make A Adt (some od) rdt).matvec x).length = m * od.prod ∧
    ∀ i t, i < m → t < od.prod →
      ((MatrixMult.make A Adt (some od) rdt).matvec x).getD (i * od.prod + t) 0 =
        ∑ j ∈ Finset.range n, (A.getD i []).getD j 0 * x.getD (j * od.prod + t) 0 := by
  have hnc : ncols A = n := ncols_eq hwf hm
  have hmv : (MatrixMult.make A Adt (some od) rdt).matvec x =
      (matMat A (reshape2 x (ncols A) od.prod)).flatten := rfl
  have hXlen : (reshape2 x (ncols A) od.prod).length = n := by
    rw [reshape2_length, hnc]
  have hXrows : ∀ r ∈ reshape2 x (ncols A) od.prod, r.length = od.prod := by
    intro r hr
    obtain ⟨i, hiX, rfl⟩ := List.mem_iff_getElem.mp hr
    rw [← getD_of_lt _ [] hiX]
    exact reshape2_row_length (by rw [hx, hnc]) (by rw [← reshape2_length x (ncols A) od.prod]; exact hiX)
  have hncX : ncols (reshape2 x (ncols A) od.prod) = od.prod :=
    ncols_eq ⟨rfl, hXrows⟩ (by rw [hXlen]; exact hn)
  have hMrows : ∀ r ∈ matMat A (reshape2 x (ncols A) od.prod), r.length = od.prod := by
    intro r hr
    rw [matMat_rows_length A _ r hr, hncX]
  rw [hmv]
  constructor
  · rw [flatten_length_uniform hMrows, matMat_length, hwf.1]
  · intro i t hi ht
    have hiA : i < A.length := hwf.1 ▸ hi
    rw [flatten_getD_uniform hMrows (by rw [matMat_length]; exact hiA) ht,
      matMat_getD_getD hiA (by rw [hncX]; exact ht),
      dotl_eq_sum (row_length hwf hiA)
        (by rw [trMat_row_length (by rw [hncX]; exact ht), hXlen])]
    refine Finset.sum_congr rfl ?_
    intro j hj
    have hjn : j < n := Finset.mem_range.mp hj
    rw [trMat_getD_getD (by rw [hncX]; exact ht) (by rw [hXlen]; exact hjn),
      reshape2_getD_getD (by rw [hnc]; exact hjn) ht]

theorem mm_rmatvec_plain {R : Type} [CommRing R] [StarRing R] {A : List (List R)}
    {m n : Nat} (hwf : wellFormed A m n) (hm : 0 < m) (Adt rdt : DType) {y : List R}
    (hy : y.length = m) :
    ((MatrixMult.make A Adt none rdt).rmatvec y).length = n ∧
    ∀ j, j < n →
      ((MatrixMult.make A Adt none rdt).rmatvec y).getD j 0 =
        if Adt.isComplex then
          ∑ i ∈ Finset.range m, star ((A.getD i []).getD j 0) * y.getD i 0
        else ∑ i ∈ Finset.range m, (A.getD i []).getD j 0 * y.getD i 0 := by
  have hnc : ncols A = n := ncols_eq hwf hm
  have hrm : (MatrixMult.make A Adt none rdt).rmatvec y =
      if Adt.isComplex then (matVec (trMat A) (y.map star)).map star
      else matVec (trMat A) y := rfl
  rw [hrm]
  by_cases hc : Adt.isComplex
  · rw [if_pos hc]
    constructor
    · rw [List.length_map, matVec_length, trMat_length, hnc]
    · intro j hj
      rw [if_pos hc]
      have hjt : j < (trMat A).length := by rw [trMat_length, hnc]; exact hj
      rw [getD_of_lt _ _ (by rw [List.length_map, matVec_length]; exact hjt),
        List.getElem_map, ← getD_of_lt (matVec (trMat A) (y.map star)) (0 : R)
          (by rw [matVec_length]; exact hjt),
        matVec_getD hjt,
        dotl_eq_sum (by rw [trMat_row_length (by rw [hnc]; exact hj), hwf.1])
          (by rw [List.length_map, hy]),
        star_sum]
      refine Finset.sum_congr rfl ?_
      intro i hi
      have him : i < m := Finset.mem_range.mp hi
      have hiA : i < A.length := hwf.1 ▸ him
      rw [trMat_getD_getD (by rw [hnc]; exact hj) hiA,
        getD_of_lt (y.map star) (0 : R) (by rw [List.length_map, hy]; exact him),
        List.getElem_map, star_mul', star_star,
        ← getD_of_lt y (0 : R) (by rw [hy]; exact him)]
  · rw [if_neg hc]
    constructor
    · rw [matVec_length, trMat_length, hnc]
    · intro j hj
      rw [if_neg hc]
      have hjt : j < (trMat A).length := by rw [trMat_length, hnc]; exact hj
      rw [matVec_getD hjt,
        dotl_eq_sum (by rw [trMat_row_length (by rw [hnc]; exact hj), hwf.1]) hy]
      refine Finset.sum_congr rfl ?_
      intro i hi
      have hiA : i < A.length := hwf.1 ▸ Finset.mem_range.mp hi
      rw [trMat_getD_getD (by rw [hnc]; exact hj) hiA]

theorem conjMat_length {R : Type} [Star R] (A : List (List R)) :
    (conjMat A).length = A.length := by
  simp [conjMat]

theorem conjMat_getD_row {R : Type} [Star R] {A : List (List R)} {i : Nat}
    (hi : i < A.length) : (conjMat A).getD i [] = (A.getD i []).map star := by
  rw [getD_of_lt _ _ (by rw [conjMat_length]; exact hi), getD_of_lt A [] hi]
  simp [conjMat]

theorem conjMat_rows_length {R : Type} [Star R] {A : List (List R)} {K : Nat}
    (h : ∀ r ∈ A, r.length = K) : ∀ r ∈ conjMat A, r.length = K := by
  intro r hr
  obtain ⟨a, ha, rfl⟩ := List.mem_map.mp hr
  rw [List.length_map]
  exact h a ha

theorem conjMat_getD_getD {R : Type} [Star R] [Zero R] {A : List (List R)} {i j : Nat}
    (hi : i < A.length) (hj : j < (A.getD i []).length) :
    ((conjMat A).getD i []).getD j 0 = star ((A.getD i []).getD j 0) := by
  rw [conjMat_getD_row hi,
    getD_of_lt _ _ (by rw [List.length_map]; exact hj),
    List.getElem_map, getD_of_lt _ (0 : R) hj]

theorem trMat_rows_length {R : Type} [Zero R] (A : List (List R)) :
    ∀ r ∈ trMat A, r.length = A.length := by
  intro r hr
  simp only [trMat, List.mem_map, List.mem_range] at hr
  obtain ⟨j, _, rfl⟩ := hr
  simp

theorem mm_rmatvec_reshape {R : Type} [CommRing R] [StarRing R] {A : List (List R)}
    {m n : Nat} (hwf : wellFormed A m n) (hm : 0 < m) (hn : 0 < n) (od : List Nat)
    (Adt rdt : DType) {y : List R} (hy : y.length = m * od.prod) :
    ((MatrixMult.make A Adt (some od) rdt).rmatvec y).length = n * od.prod ∧
    ∀ j t, j < n → t < od.prod →
      ((MatrixMult.make A Adt (some od) rdt).rmatvec y).getD (j * od.prod + t) 0 =
        if Adt.isComplex then
          ∑ i ∈ Finset.range m, star ((A.getD i []).getD j 0) * y.getD (i * od.prod + t) 0
        else
          ∑ i ∈ Finset.range m, (A.getD i []).getD j 0 * y.getD (i * od.prod + t) 0 := by
  have hnc : ncols A = n := ncols_eq hwf hm
  set K := od.prod with hK
  have hYlen : (reshape2 y (nrows A) K).length = m := by
    rw [reshape2_length, nrows, hwf.1]
  have hYrows : ∀ r ∈ reshape2 y (nrows A) K, r.length = K := by
    intro r hr
    obtain ⟨i, hiY, rfl⟩ := List.mem_iff_getElem.mp hr
    rw [← getD_of_lt _ [] hiY]
    exact reshape2_row_length (by rw [hy, nrows, hwf.1])
      (by rw [← reshape2_length y (nrows A) K]; exact hiY)
  have hYget : ∀ {i t : Nat}, i < m → t < K →
      ((reshape2 y (nrows A) K).getD i []).getD t 0 = y.getD (i * K + t) 0 := by
    intro i t hi ht
    exact reshape2_getD_getD (by rw [nrows, hwf.1]; exact hi) ht
  have htrA : (trMat A).length = n := by rw [trMat_length, hnc]
  by_cases hc : Adt.isComplex
  · have hrm : (MatrixMult.make A Adt (some od) rdt).rmatvec y =
        (conjMat (matMat (trMat A) (conjMat (reshape2 y (nrows A) K)))).flatten := by
      rw [MatrixMult.rmatvec]
      simp only [MatrixMult.make, hc]
      rfl
    have hZrows : ∀ r ∈ conjMat (reshape2 y (nrows A) K), r.length = K :=
      conjMat_rows_length hYrows
    have hZlen : (conjMat (reshape2 y (nrows A) K)).length = m := by
      rw [conjMat_length, hYlen]
    have hncZ : ncols (conjMat (reshape2 y (nrows A) K)) = K :=
      ncols_eq ⟨rfl, hZrows⟩ (by rw [hZlen]; exact hm)
    have hMrows : ∀ r ∈ matMat (trMat A) (conjMat (reshape2 y (nrows A) K)), r.length = K := by
      intro r hr
      rw [matMat_rows_length _ _ r hr, hncZ]
    have hCrows : ∀ r ∈ conjMat (matMat (trMat A) (conjMat (reshape2 y (nrows A) K))),
        r.length = K := conjMat_rows_length hMrows
    rw [hrm]
    constructor
    · rw [flatten_length_uniform hCrows, conjMat_length, matMat_length, htrA]
    · intro j t hj ht
      rw [if_pos hc]
      have hjM : j < (matMat (trMat A) (conjMat (reshape2 y (nrows A) K))).length := by
        rw [matMat_length, htrA]; exact hj
      rw [flatten_getD_uniform hCrows (by rw [conjMat_length, matMat_length, htrA]; exact hj) ht,
        conjMat_getD_getD hjM (by rw [matMat_row_length (by rw [htrA]; exact hj), hncZ]; exact ht),
        matMat_getD_getD (by rw [htrA]; exact hj) (by rw [hncZ]; exact ht),
        dotl_eq_sum (by rw [trMat_row_length (by rw [hnc]; exact hj), hwf.1])
          (by rw [trMat_row_length (by rw [hncZ]; exact ht), hZlen]),
        star_sum]
      refine Finset.sum_congr rfl ?_
      intro i hi
      have him : i < m := Finset.mem_range.mp hi
      have hiA : i < A.length := hwf.1 ▸ him
      have hiZ : i < (conjMat (reshape2 y (nrows A) K)).length := by
        rw [hZlen]; exact him
      rw [trMat_getD_getD (by rw [hnc]; exact hj) hiA,
        trMat_getD_getD (by rw [hncZ]; exact ht) hiZ,
        conjMat_getD_getD (by rw [hYlen]; exact him)
          (by
            rw [reshape2_row_length (by rw [hy, nrows, hwf.1])
              (by rw [nrows, hwf.1]; exact him)]
            exact ht),
        star_mul', star_star, hYget him ht]
  · have hrm : (MatrixMult.make A Adt (some od) rdt).rmatvec y =
        (matMat (trMat A) (reshape2 y (nrows A) K)).flatten := by
      rw [MatrixMult.rmatvec]
      simp only [MatrixMult.make, hc]
      rfl
    have hncY : ncols (reshape2 y (nrows A) K) = K :=
      ncols_eq ⟨rfl, hYrows⟩ (by rw [hYlen]; exact hm)
    have hMrows : ∀ r ∈ matMat (trMat A) (reshape2 y (nrows A) K), r.length = K := by
      intro r hr
      rw [matMat_rows_length _ _ r hr, hncY]
    rw [hrm]
    constructor
    · rw [flatten_length_uniform hMrows, matMat_length, htrA]
    · intro j t hj ht
      rw [if_neg hc]
      rw [flatten_getD_uniform hMrows (by rw [matMat_length, htrA]; exact hj) ht,
        matMat_getD_getD (by rw [htrA]; exact hj) (by rw [hncY]; exact ht),
        dotl_eq_sum (by rw [trMat_row_length (by rw [hnc]; exact hj), hwf.1])
          (by rw [trMat_row_length (by rw [hncY]; exact ht), hYlen])]
      refine Finset.sum_congr rfl ?_
      intro i hi
      have him : i < m := Finset.mem_range.mp hi
      have hiA : i < A.length := hwf.1 ▸ him
      rw [trMat_getD_getD (by rw [hnc]; exact hj) hiA,
        trMat_getD_getD (by rw [hncY]; exact ht) (by rw [hYlen]; exact him),
        hYget him ht]

theorem entry_selfadj {R : Type} [Zero R] [Star R] {A : List (List R)}
    (hreal : ∀ r ∈ A, ∀ a ∈ r, star a = a) {i j : Nat} (hi : i < A.length)
    (hj : j < (A.getD i []).length) :
    star ((A.getD i []).getD j 0) = (A.getD i []).getD j 0 := by
  have hrow : A.getD i [] ∈ A := by
    rw [getD_of_lt A [] hi]
    exact A.getElem_mem hi
  rw [getD_of_lt _ (0 : R) hj]
  exact hreal _ hrow _ ((A.getD i []).getElem_mem hj)

/-! ## Claim theorems for the MatrixMult operator -/

/-- Claim C4: the forward application of MatrixMult.  Without `otherdims`
it is the plain product `A @ x` (entry `i` is `sum_j A[i][j] * x[j]`),
of length `prod dimsd`; with `otherdims` the flat input is reshaped to
`(cols A, prod otherdims)` columns, each column is multiplied by `A`,
and the result is flattened to length `prod dimsd`, so the flat entry
`i * K + t` is `sum_j A[i][j] * x[j * K + t]`.  In particular
`A = [[1,2],[3,4]]` sends `[1,1]` to `[3,7]`. -/
theorem mm_matvec_spec {R : Type} [CommRing R] {A : List (List R)} {m n : Nat}
    (hwf : wellFormed A m n) (hm : 0 < m) (hn : 0 < n) (Adt rdt : DType) :
    (∀ x : List R, x.length = n →
      ((MatrixMult.make A Adt none rdt).matvec x).length =
        (MatrixMult.make A Adt none rdt).dimsd.prod ∧
      ∀ i, i < m →
        ((MatrixMult.make A Adt none rdt).matvec x).getD i 0 =
          ∑ j ∈ Finset.range n, (A.getD i []).getD j 0 * x.getD j 0) ∧
    (∀ (od : List Nat) (x : List R),
      x.length = (MatrixMult.make A Adt (some od) rdt).dims.prod →
      ((MatrixMult.make A Adt (some od) rdt).matvec x).length =
        (MatrixMult.make A Adt (some od) rdt).dimsd.prod ∧
      ∀ i t, i < m → t < od.prod →
        ((MatrixMult.make A Adt (some od) rdt).matvec x).getD (i * od.prod + t) 0 =
          ∑ j ∈ Finset.range n, (A.getD i []).getD j 0 * x.getD (j * od.prod + t) 0) ∧
    (MatrixMult.make ([[1, 2], [3, 4]] : List (List Int))
      .float64 none .float64).matvec [1, 1] = [3, 7] := by
  have hnc : ncols A = n := ncols_eq hwf hm
  have hdimsd1 : (MatrixMult.make A Adt none rdt).dimsd.prod = m := by
    show ([nrows A] : List Nat).prod = m
    rw [List.prod_singleton, nrows, hwf.1]
  refine ⟨?_, ?_, rfl⟩
  · intro x hx
    obtain ⟨hlen, hent⟩ := mm_matvec_plain hwf hm Adt rdt hx
    exact ⟨by rw [hlen, hdimsd1], hent⟩
  · intro od x hx
    have hx2 : x.length = n * od.prod := by
      rw [hx]
      show (ncols A :: od).prod = n * od.prod
      rw [List.prod_cons, hnc]
    obtain ⟨hlen, hent⟩ := mm_matvec_reshape hwf hm hn od Adt rdt hx2
    refine ⟨?_, fun i t hi ht => hent i t hi ht⟩
    rw [hlen]
    show m * od.prod = (nrows A :: od).prod
    rw [List.prod_cons, nrows, hwf.1]

/-- Witness for C4 at `A = [[1,2],[3,4]]` over the integers, with the
broadcast case at `otherdims = (2,)`. -/
theorem mm_matvec_spec_witness :
    (((MatrixMult.make ([[1, 2], [3, 4]] : List (List Int))
        .float64 none .float64).matvec [5, 7]).getD 1 0 =
      ∑ j ∈ Finset.range 2,
        (([[1, 2], [3, 4]] : List (List Int)).getD 1 []).getD j 0 *
          ([5, 7] : List Int).getD j 0) ∧
    (((MatrixMult.make ([[1, 2], [3, 4]] : List (List Int))
        .float64 (some [2]) .float64).matvec [1, 0, 0, 1]).getD (1 * 2 + 0) 0 =
      ∑ j ∈ Finset.range 2,
        (([[1, 2], [3, 4]] : List (List Int)).getD 1 []).getD j 0 *
          ([1, 0, 0, 1] : List Int).getD (j * 2 + 0) 0) :=
  ⟨((mm_matvec_spec (A := [[1, 2], [3, 4]]) (m := 2) (n := 2) (by decide)
      (by decide) (by decide) .float64 .float64).1 [5, 7] rfl).2 1 (by decide),
   ((mm_matvec_spec (A := [[1, 2], [3, 4]]) (m := 2) (n := 2) (by decide)
      (by decide) (by decide) .float64 .float64).2.1 [2] [1, 0, 0, 1] rfl).2
      1 0 (by decide) (by decide)⟩

/-- Claim C3: the adjoint application of MatrixMult.  When the wrapped
matrix is complex the entry `j` (or `j * K + t` with `otherdims`) of the
result is `sum_i conj(A[i][j]) * x[i]` — that is, `conj(A^T @ conj(x))`,
the Hermitian transpose applied to `x`; otherwise it is
`sum_i A[i][j] * x[i]`, that is `A^T @ x`.  The result is flattened to
length `prod dims`.  In particular `A = [[1,2],[3,4]]` sends `[1,1]` to
`[4,6]`. -/
theorem mm_rmatvec_spec {R : Type} [CommRing R] [StarRing R] {A : List (List R)}
    {m n : Nat} (hwf : wellFormed A m n) (hm : 0 < m) (hn : 0 < n) (Adt rdt : DType) :
    (∀ y : List R, y.length = m →
      ((MatrixMult.make A Adt none rdt).rmatvec y).length =
        (MatrixMult.make A Adt none rdt).dims.prod ∧
      ∀ j, j < n →
        ((MatrixMult.make A Adt none rdt).rmatvec y).getD j 0 =
          if (MatrixMult.make A Adt none rdt).complex then
            ∑ i ∈ Finset.range m, star ((A.getD i []).getD j 0) * y.getD i 0
          else ∑ i ∈ Finset.range m, (A.getD i []).getD j 0 * y.getD i 0) ∧
    (∀ (od : List Nat) (y : List R),
      y.length = (MatrixMult.make A Adt (some od) rdt).dimsd.prod →
      ((MatrixMult.make A Adt (some od) rdt).rmatvec y).length =
        (MatrixMult.make A Adt (some od) rdt).dims.prod ∧
      ∀ j t, j < n → t < od.prod →
        ((MatrixMult.make A Adt (some od) rdt).rmatvec y).getD (j * od.prod + t) 0 =
          if (MatrixMult.make A Adt (some od) rdt).complex then
            ∑ i ∈ Finset.range m, star ((A.getD i []).getD j 0) * y.getD (i * od.prod + t) 0
          else
            ∑ i ∈ Finset.range m, (A.getD i []).getD j 0 * y.getD (i * od.prod + t) 0) ∧
    (MatrixMult.make ([[1, 2], [3, 4]] : List (List Int))
      .float64 none .float64).rmatvec [1, 1] = [4, 6] := by
  have hnc : ncols A = n := ncols_eq hwf hm
  have hcpx : (MatrixMult.make A Adt none rdt).complex = Adt.isComplex := rfl
  have hcpx2 : ∀ od : List Nat,
      (MatrixMult.make A Adt (some od) rdt).complex = Adt.isComplex := fun _ => rfl
  refine ⟨?_, ?_, rfl⟩
  · intro y hy
    obtain ⟨hlen, hent⟩ := mm_rmatvec_plain hwf hm Adt rdt hy
    refine ⟨?_, fun j hj => by rw [hcpx]; exact hent j hj⟩
    rw [hlen]
    show n = ([ncols A] : List Nat).prod
    rw [List.prod_singleton, hnc]
  · intro od y hy
    have hy2 : y.length = m * od.prod := by
      rw [hy]
      show (nrows A :: od).prod = m * od.prod
      rw [List.prod_cons, nrows, hwf.1]
    obtain ⟨hlen, hent⟩ := mm_rmatvec_reshape hwf hm hn od Adt rdt hy2
    refine ⟨?_, fun j t hj ht => by rw [hcpx2 od]; exact hent j t hj ht⟩
    rw [hlen]
    show n * od.prod = (ncols A :: od).prod
    rw [List.prod_cons, hnc]

/-- Witness for C3 at a complex matrix `A = [[i]]` (Gaussian integers)
and at the real example `A = [[1,2],[3,4]]`. -/
theorem mm_rmatvec_spec_witness :
    (((MatrixMult.make ([[⟨0, 1⟩]] : List (List GaussianInt))
        .complex128 none .complex128).rmatvec [⟨1, 0⟩]).getD 0 0 =
      if (MatrixMult.make ([[⟨0, 1⟩]] : List (List GaussianInt))
        .complex128 none .complex128).complex then
        ∑ i ∈ Finset.range 1,
          star ((([[⟨0, 1⟩]] : List (List GaussianInt)).getD i []).getD 0 0) *
            ([⟨1, 0⟩] : List GaussianInt).getD i 0
      else
        ∑ i ∈ Finset.range 1,
          (([[⟨0, 1⟩]] : List (List GaussianInt)).getD i []).getD 0 0 *
            ([⟨1, 0⟩] : List GaussianInt).getD i 0) ∧
    (MatrixMult.make ([[1, 2], [3, 4]] : List (List Int))
      .float64 none .float64).rmatvec [1, 1] = [4, 6] :=
  ⟨((mm_rmatvec_spec (A := ([[⟨0, 1⟩]] : List (List GaussianInt))) (m := 1) (n := 1)
      (by decide) (by decide) (by decide) .complex128 .complex128).1
      ([⟨1, 0⟩] : List GaussianInt) rfl).2 0 (by decide),
   (mm_rmatvec_spec (A := ([[1, 2], [3, 4]] : List (List Int))) (m := 2) (n := 2)
      (by decide) (by decide) (by decide) .float64 .float64).2.2⟩

/-- Claim C2 counterexample: with the plain bilinear `numpy.dot` (no
conjugation) the adjoint identity fails for a complex matrix.  Take the
Gaussian-integer matrix `A = [[i]]` and `x = y = [1]`: the adjoint
gives `[-i]`, so `dot(rmatvec(y), x) = -i` while
`dot(y, matvec(x)) = i`. -/
theorem mm_adjoint_dot_counterexample :
    dotl ((MatrixMult.make ([[⟨0, 1⟩]] : List (List GaussianInt))
        .complex128 none .complex128).rmatvec [⟨1, 0⟩]) ([⟨1, 0⟩] : List GaussianInt) ≠
      dotl ([⟨1, 0⟩] : List GaussianInt)
        ((MatrixMult.make ([[⟨0, 1⟩]] : List (List GaussianInt))
          .complex128 none .complex128).matvec [⟨1, 0⟩]) := by
  decide

/-- Claim C2 (amended): the adjoint identity holds in exact arithmetic,
including for complex-valued `A`, for the conjugate-linear inner
product `vdot` (which conjugates its first argument), not for the plain
bilinear `dot`: `vdot(rmatvec(y), x) = vdot(y, matvec(x))`.  When the
matrix is flagged non-complex the code takes the unconjugated branch,
so the identity additionally requires the entries of `A` to be
self-adjoint (true real data). -/
theorem mm_adjoint_vdot {R : Type} [CommRing R] [StarRing R] {A : List (List R)}
    {m n : Nat} (hwf : wellFormed A m n) (hm : 0 < m) (hn : 0 < n) (Adt rdt : DType)
    (hreal : Adt.isComplex = false → ∀ r ∈ A, ∀ a ∈ r, star a = a) :
    (∀ x y : List R, x.length = n → y.length = m →
      vdotl ((MatrixMult.make A Adt none rdt).rmatvec y) x =
        vdotl y ((MatrixMult.make A Adt none rdt).matvec x)) ∧
    (∀ (od : List Nat) (x y : List R),
      x.length = n * od.prod → y.length = m * od.prod →
      vdotl ((MatrixMult.make A Adt (some od) rdt).rmatvec y) x =
        vdotl y ((MatrixMult.make A Adt (some od) rdt).matvec x)) := by
  have hccase : Adt.isComplex = true ∨ Adt.isComplex = false := by
    cases Adt.isComplex
    · exact Or.inr rfl
    · exact Or.inl rfl
  constructor
  · intro x y hx hy
    obtain ⟨hrlen, hrent⟩ := mm_rmatvec_plain hwf hm Adt rdt hy
    obtain ⟨hmlen, hment⟩ := mm_matvec_plain hwf hm Adt rdt hx
    have hstar : ∀ j, j < n →
        star (((MatrixMult.make A Adt none rdt).rmatvec y).getD j 0) =
          ∑ i ∈ Finset.range m, (A.getD i []).getD j 0 * star (y.getD i 0) := by
      intro j hj
      rw [hrent j hj]
      rcases hccase with hc | hc
      · rw [if_pos hc, star_sum]
        refine Finset.sum_congr rfl fun i _ => ?_
        rw [star_mul', star_star]
      · rw [if_neg (by rw [hc]; exact Bool.false_ne_true), star_sum]
        refine Finset.sum_congr rfl fun i hi => ?_
        have hiA : i < A.length := hwf.1 ▸ Finset.mem_range.mp hi
        rw [star_mul',
          entry_selfadj (hreal hc) hiA (by rw [row_length hwf hiA]; exact hj)]
    calc vdotl ((MatrixMult.make A Adt none rdt).rmatvec y) x
        = ∑ j ∈ Finset.range n,
            star (((MatrixMult.make A Adt none rdt).rmatvec y).getD j 0) * x.getD j 0 :=
          vdotl_eq_sum hrlen hx
      _ = ∑ j ∈ Finset.range n, ∑ i ∈ Finset.range m,
            (A.getD i []).getD j 0 * star (y.getD i 0) * x.getD j 0 := by
          refine Finset.sum_congr rfl fun j hj => ?_
          rw [hstar j (Finset.mem_range.mp hj), Finset.sum_mul]
      _ = ∑ i ∈ Finset.range m, ∑ j ∈ Finset.range n,
            (A.getD i []).getD j 0 * star (y.getD i 0) * x.getD j 0 := Finset.sum_comm
      _ = ∑ i ∈ Finset.range m,
            star (y.getD i 0) * (((MatrixMult.make A Adt none rdt).matvec x).getD i 0) := by
          refine Finset.sum_congr rfl fun i hi => ?_
          rw [hment i (Finset.mem_range.mp hi), Finset.mul_sum]
          exact Finset.sum_congr rfl fun j _ => by ring
      _ = vdotl y ((MatrixMult.make A Adt none rdt).matvec x) :=
          (vdotl_eq_sum hy hmlen).symm
  · intro od x y hx hy
    obtain ⟨hrlen, hrent⟩ := mm_rmatvec_reshape hwf hm hn od Adt rdt hy
    obtain ⟨hmlen, hment⟩ := mm_matvec_reshape hwf hm hn od Adt rdt hx
    have hstar : ∀ j t, j < n → t < od.prod →
        star (((MatrixMult.make A Adt (some od) rdt).rmatvec y).getD (j * od.prod + t) 0) =
          ∑ i ∈ Finset.range m,
            (A.getD i []).getD j 0 * star (y.getD (i * od.prod + t) 0) := by
      intro j t hj ht
      rw [hrent j t hj ht]
      rcases hccase with hc | hc
      · rw [if_pos hc, star_sum]
        refine Finset.sum_congr rfl fun i _ => ?_
        rw [star_mul', star_star]
      · rw [if_neg (by rw [hc]; exact Bool.false_ne_true), star_sum]
        refine Finset.sum_congr rfl fun i hi => ?_
        have hiA : i < A.length := hwf.1 ▸ Finset.mem_range.mp hi
        rw [star_mul',
          entry_selfadj (hreal hc) hiA (by rw [row_length hwf hiA]; exact hj)]
    calc vdotl ((MatrixMult.make A Adt (some od) rdt).rmatvec y) x
        = ∑ u ∈ Finset.range (n * od.prod),
            star (((MatrixMult.make A Adt (some od) rdt).rmatvec y).getD u 0) *
              x.getD u 0 := vdotl_eq_sum hrlen hx
      _ = ∑ j ∈ Finset.range n, ∑ t ∈ Finset.range od.prod,
            star (((MatrixMult.make A Adt (some od) rdt).rmatvec y).getD
              (j * od.prod + t) 0) * x.getD (j * od.prod + t) 0 :=
          sum_range_mul_split _ n od.prod
      _ = ∑ j ∈ Finset.range n, ∑ t ∈ Finset.range od.prod, ∑ i ∈ Finset.range m,
            (A.getD i []).getD j 0 * star (y.getD (i * od.prod + t) 0) *
              x.getD (j * od.prod + t) 0 := by
          refine Finset.sum_congr rfl fun j hj => Finset.sum_congr rfl fun t ht => ?_
          rw [hstar j t (Finset.mem_range.mp hj) (Finset.mem_range.mp ht),
            Finset.sum_mul]
      _ = ∑ j ∈ Finset.range n, ∑ i ∈ Finset.range m, ∑ t ∈ Finset.range od.prod,
            (A.getD i []).getD j 0 * star (y.getD (i * od.prod + t) 0) *
              x.getD (j * od.prod + t) 0 :=
          Finset.sum_congr rfl fun j _ => Finset.sum_comm
      _ = ∑ i ∈ Finset.range m, ∑ j ∈ Finset.range n, ∑ t ∈ Finset.range od.prod,
            (A.getD i []).getD j 0 * star (y.getD (i * od.prod + t) 0) *
              x.getD (j * od.prod + t) 0 := Finset.sum_comm
      _ = ∑ i ∈ Finset.range m, ∑ t ∈ Finset.range od.prod, ∑ j ∈ Finset.range n,
            (A.getD i []).getD j 0 * star (y.getD (i * od.prod + t) 0) *
              x.getD (j * od.prod + t) 0 :=
          Finset.sum_congr rfl fun i _ => Finset.sum_comm
      _ = ∑ i ∈ Finset.range m, ∑ t ∈ Finset.range od.prod,
            star (y.getD (i * od.prod + t) 0) *
              (((MatrixMult.make A Adt (some od) rdt).matvec x).getD
                (i * od.prod + t) 0) := by
          refine Finset.sum_congr rfl fun i hi => Finset.sum_congr rfl fun t ht => ?_
          rw [hment i t (Finset.mem_range.mp hi) (Finset.mem_range.mp ht),
            Finset.mul_sum]
          exact Finset.sum_congr rfl fun j _ => by ring
      _ = ∑ u ∈ Finset.range (m * od.prod),
            star (y.getD u 0) *
              (((MatrixMult.make A Adt (some od) rdt).matvec x).getD u 0) :=
          (sum_range_mul_split
            (fun u => star (y.getD u 0) *
              (((MatrixMult.make A Adt (some od) rdt).matvec x).getD u 0))
            m od.prod).symm
      _ = vdotl y ((MatrixMult.make A Adt (some od) rdt).matvec x) :=
          (vdotl_eq_sum hy hmlen).symm

/-- Witness for the amended C2 at the complex matrix `A = [[i]]`
(Gaussian integers) and at the real `A = [[1,2],[3,4]]` with
`otherdims = (2,)`. -/
theorem mm_adjoint_vdot_witness :
    (vdotl ((MatrixMult.make ([[⟨0, 1⟩]] : List (List GaussianInt))
        .complex128 none .complex128).rmatvec [⟨1, 0⟩]) ([⟨1, 0⟩] : List GaussianInt) =
      vdotl ([⟨1, 0⟩] : List GaussianInt)
        ((MatrixMult.make ([[⟨0, 1⟩]] : List (List GaussianInt))
          .complex128 none .complex128).matvec [⟨1, 0⟩])) ∧
    (vdotl ((MatrixMult.make ([[1, 2], [3, 4]] : List (List Int))
        .float64 (some [2]) .float64).rmatvec [1, 2, 3, 4]) ([5, 6, 7, 8] : List Int) =
      vdotl ([1, 2, 3, 4] : List Int)
        ((MatrixMult.make ([[1, 2], [3, 4]] : List (List Int))
          .float64 (some [2]) .float64).matvec [5, 6, 7, 8])) :=
  ⟨(mm_adjoint_vdot (A := ([[⟨0, 1⟩]] : List (List GaussianInt))) (m := 1) (n := 1)
      (by decide) (by decide) (by decide) .complex128 .complex128
      (fun h => by cases h)).1 ([⟨1, 0⟩] : List GaussianInt)
      ([⟨1, 0⟩] : List GaussianInt) rfl rfl,
   (mm_adjoint_vdot (A := ([[1, 2], [3, 4]] : List (List Int))) (m := 2) (n := 2)
      (by decide) (by decide) (by decide) .float64 .float64
      (fun _ => by decide)).2 [2] ([5, 6, 7, 8] : List Int)
      ([1, 2, 3, 4] : List Int) rfl rfl⟩

/-- Claim C7: the constructor's dtype check.  The operator's complex
flag reflects the dtype of the wrapped values; when `A` is complex but
the requested dtype is not, the effective dtype becomes `A`'s dtype and
the warning is emitted; when `A` is not complex the effective dtype is
the requested one and no warning is emitted. -/
theorem mm_dtype_promotion {R : Type} (A : List (List R))
    (odOpt : Option (List Nat)) (Adt rdt : DType) :
    ((MatrixMult.make A Adt odOpt rdt).complex = Adt.isComplex) ∧
    (Adt.isComplex = true → rdt.isComplex = false →
      (MatrixMult.make A Adt odOpt rdt).dtype = Adt ∧
      (MatrixMult.make A Adt odOpt rdt).warned = true) ∧
    (Adt.isComplex = false →
      (MatrixMult.make A Adt odOpt rdt).dtype = rdt ∧
      (MatrixMult.make A Adt odOpt rdt).warned = false) := by
  cases odOpt <;>
    exact ⟨rfl,
      fun h1 h2 => ⟨by simp [MatrixMult.make, promoteDtype, h1, h2],
        by simp [MatrixMult.make, promoteWarn, h1, h2]⟩,
      fun h1 => ⟨by simp [MatrixMult.make, promoteDtype, h1],
        by simp [MatrixMult.make, promoteWarn, h1]⟩⟩

/-- Witness for C7: a complex Gaussian-integer matrix with requested
dtype float64 is promoted with a warning; a real integer matrix keeps
the requested dtype with no warning. -/
theorem mm_dtype_promotion_witness :
    ((MatrixMult.make ([[⟨0, 1⟩]] : List (List GaussianInt))
        .complex128 none .float64).dtype = .complex128 ∧
      (MatrixMult.make ([[⟨0, 1⟩]] : List (List GaussianInt))
        .complex128 none .float64).warned = true) ∧
    ((MatrixMult.make ([[1, 2], [3, 4]] : List (List Int))
        .float64 none .float64).dtype = .float64 ∧
      (MatrixMult.make ([[1, 2], [3, 4]] : List (List Int))
        .float64 none .float64).warned = false) :=
  ⟨(mm_dtype_promotion ([[⟨0, 1⟩]] : List (List GaussianInt))
      none .complex128 .float64).2.1 rfl rfl,
   (mm_dtype_promotion ([[1, 2], [3, 4]] : List (List Int))
      none .float64 .float64).2.2 rfl⟩

end PyLops
